import Mathlib

set_option maxRecDepth 4000

/-! Verification of the Rhapsody relative-link rewriter
    (`update_rhp_unit_paths.py`).  Strings are modelled as `List Char`,
    the filesystem as an association list from absolute path to content,
    and the run as a fuel-indexed interpreter over an explicit state. -/

/-- Characters of a string literal; used to write paths and file contents. -/
def strL (s : String) : List Char := s.data

/-- `listStartsWith p s` tests whether `p` is an initial segment of `s`. -/
def listStartsWith : List Char → List Char → Bool
  | [], _ => true
  | _ :: _, [] => false
  | p :: ps, c :: cs => (p == c) && listStartsWith ps cs

/-- `occursIn p s` tests whether `p` occurs as a contiguous substring of `s`. -/
def occursIn (p : List Char) : List Char → Bool
  | [] => p.isEmpty
  | c :: tl => listStartsWith p (c :: tl) || occursIn p tl

/-- Start index of the last occurrence of `p` in `s`, if any. -/
def lastOcc (p : List Char) : List Char → Option Nat
  | [] => none
  | c :: tl =>
    match lastOcc p tl with
    | some j => some (j + 1)
    | none => if listStartsWith p (c :: tl) then some 0 else none

/-- Split a character list on a separator, like Python `str.split(sep)`. -/
def splitOnChar (sep : Char) : List Char → List (List Char)
  | [] => [[]]
  | c :: tl =>
    let r := splitOnChar sep tl
    if c == sep then [] :: r
    else
      match r with
      | [] => [[c]]
      | h :: t => (c :: h) :: t

/-- Python `str.lstrip(ch)`: drop every leading occurrence of `ch`. -/
def lstripChar (ch : Char) : List Char → List Char
  | [] => []
  | c :: tl => if c == ch then lstripChar ch tl else c :: tl

/-- Python `str.rstrip(ch)`: drop every trailing occurrence of `ch`. -/
def rstripChar (ch : Char) (s : List Char) : List Char :=
  (lstripChar ch s.reverse).reverse

/-- Python `str.replace(pat, repl, 1)` for a non-empty `pat`: replace the
    leftmost occurrence only.  (Call sites only pass non-empty literals;
    the `pat ≠ []` guard keeps the recursion well defined.) -/
def replaceFirst (pat repl : List Char) : List Char → List Char
  | [] => []
  | c :: tl =>
    if pat ≠ [] ∧ listStartsWith pat (c :: tl) then repl ++ (c :: tl).drop pat.length
    else c :: replaceFirst pat repl tl

/-- Python `str.replace(pat, repl)` (all occurrences, left to right,
    non-overlapping), fuel-indexed so that it evaluates in the kernel. -/
def strReplaceAllF (pat repl : List Char) : Nat → List Char → List Char
  | 0, s => s
  | _ + 1, [] => []
  | fuel + 1, c :: tl =>
    if pat ≠ [] ∧ listStartsWith pat (c :: tl) then
      repl ++ strReplaceAllF pat repl fuel ((c :: tl).drop pat.length)
    else c :: strReplaceAllF pat repl fuel tl

/-- Python `str.replace(pat, repl)` on character lists. -/
def strReplaceAll (pat repl s : List Char) : List Char :=
  strReplaceAllF pat repl s.length s

/-- Key deduplication of a Python dict comprehension: keep the first
    occurrence of each key, fuel-indexed for kernel evaluation. -/
def dedupKeepFirstF : Nat → List (List Char) → List (List Char)
  | 0, l => l
  | _ + 1, [] => []
  | fuel + 1, x :: tl => x :: dedupKeepFirstF fuel (tl.filter (· ≠ x))

/-- Keep the first occurrence of each element (Python dict key order). -/
def dedupKeepFirst (l : List (List Char)) : List (List Char) :=
  dedupKeepFirstF l.length l

/-- Python `str.lower()` restricted to the ASCII case used for path identity. -/
def lowerStr (s : List Char) : List Char := s.map Char.toLower

/-- Association-list lookup (Python `dict.get`). -/
def alookup {β : Type} (k : List Char) : List (List Char × β) → Option β
  | [] => none
  | (k', v) :: tl => if k = k' then some v else alookup k tl

/-- Association-list assignment (Python `dict[k] = v`): overwrite in place
    if the key exists, otherwise append (insertion order preserved). -/
def dicoSet {β : Type} (d : List (List Char × β)) (k : List Char) (v : β) :
    List (List Char × β) :=
  match d with
  | [] => [(k, v)]
  | (k', v') :: tl => if k' = k then (k, v) :: tl else (k', v') :: dicoSet tl k v

/-- Length of the common prefix of two component lists
    (`os.path.commonprefix` on split paths). -/
def commonLen : List (List Char) → List (List Char) → Nat
  | a :: as_, b :: bs => if a = b then commonLen as_ bs + 1 else 0
  | _, _ => 0

/-! ## POSIX path functions (`os.path`) -/

/-- `os.path.isabs` on POSIX: the path starts with a slash. -/
def isabs (p : List Char) : Bool :=
  match p with
  | '/' :: _ => true
  | _ => false

/-- `os.path.join a b` on POSIX for the shapes the program uses. -/
def osJoin (a b : List Char) : List Char :=
  if isabs b then b
  else if a = [] then b
  else if a.getLast? = some '/' then a ++ b
  else a ++ strL "/" ++ b

/-- One step of `posixpath.normpath` component resolution. -/
def normStep (isAbs : Bool) (acc : List (List Char)) (c : List Char) :
    List (List Char) :=
  if c = strL ".." then
    if acc ≠ [] ∧ acc.getLast? ≠ some (strL "..") then acc.dropLast
    else if acc = [] ∧ isAbs then acc
    else acc ++ [c]
  else acc ++ [c]

/-- `posixpath.normpath` (the double-slash-root special case is not
    modelled; no path in this development uses it). -/
def normpath (p : List Char) : List Char :=
  let comps := (splitOnChar '/' p).filter (fun c => c ≠ [] ∧ c ≠ strL ".")
  let isAbs := isabs p
  let resolved := comps.foldl (normStep isAbs) []
  if resolved = [] then (if isAbs then strL "/" else strL ".")
  else (if isAbs then strL "/" else []) ++ List.intercalate (strL "/") resolved

/-- `os.path.abspath`: join with the working directory, then normalize. -/
def abspath (cwd p : List Char) : List Char := normpath (osJoin cwd p)

/-- `posixpath.relpath path start`: the path to `path` relative to `start`. -/
def relpath (cwd path start : List Char) : List Char :=
  let pl := (splitOnChar '/' (abspath cwd path)).filter (· ≠ [])
  let sl := (splitOnChar '/' (abspath cwd start)).filter (· ≠ [])
  let i := commonLen sl pl
  let rel := List.replicate (sl.length - i) (strL "..") ++ pl.drop i
  if rel = [] then strL "." else List.intercalate (strL "/") rel

/-! ## Token scanning: `re.findall(">.*_rpy<", content)`

    `.` does not match a newline, so every match lies within a single
    line; the global scan is therefore the concatenation of the per-line
    scans.  Within a line the scan is leftmost and `.*` is greedy: a match
    starts at the first `>` that is followed by `_rpy<` and extends to the
    end of the last `_rpy<` of the line, and scanning resumes after it. -/

/-- The literal tail of the reference-token regular expression. -/
def rpyMarker : List Char := strL "_rpy<"

/-- Leftmost greedy scan of one line for `>.*_rpy<` matches, fuel-indexed
    (the wrapper passes the line length, which always suffices). -/
def scanLineF : Nat → List Char → List (List Char)
  | 0, _ => []
  | _ + 1, [] => []
  | fuel + 1, c :: tl =>
    if c == '>' then
      match lastOcc rpyMarker tl with
      | some j =>
        ('>' :: tl.take (j + rpyMarker.length)) ::
          scanLineF fuel (tl.drop (j + rpyMarker.length))
      | none => scanLineF fuel tl
    else scanLineF fuel tl

/-- All `>.*_rpy<` matches of one line. -/
def scanLine (s : List Char) : List (List Char) := scanLineF s.length s

/-- The lines of a content string. -/
def splitLines (content : List Char) : List (List Char) :=
  splitOnChar '\n' content

/-- `re.findall(">.*_rpy<", content)`: per-line leftmost greedy matches. -/
def pyFindAll (content : List Char) : List (List Char) :=
  (splitLines content).flatMap scanLine

/-- Whether a line contains at least one `>.*_rpy<` match: some `>`
    followed later in the line by `_rpy<`. -/
def hasTok : List Char → Bool
  | [] => false
  | c :: tl => ((c == '>') && occursIn rpyMarker tl) || hasTok tl

/-! ## Data model

    One `RhpRpyx` record per constructed instance; the run state keeps a
    heap of instances addressed by allocation order, so that instance
    identity (shared canonical instances versus duplicates) is explicit.
    The Python attribute `exists` is named `fileExists` (`exists` is a
    Lean keyword); `wasRead` records whether `getLinkedRpyx` has loaded
    `fileContent` for this instance. -/

structure RhpRpyx where
  absPath : List Char
  fileExists : Bool
  fileContent : List Char
  wasRead : Bool
  linksDico : List (List Char × Nat)
  replacementsDico : List (List Char × List Char)
deriving DecidableEq

/-- The run counters of `RelativePathReplacementStrategy`. -/
structure RelativePathReplacementStrategy where
  linkCount : Nat
  replacementCount : Nat
  fileUpdatedCount : Nat
  updatedFileCount : Nat
  maxFileToUpdate : Nat
deriving DecidableEq

/-- Observable I/O and tally events of a run, in order. -/
inductive Ev where
  | read (p : List Char)
  | prep (p : List Char)
  | write (p : List Char)
deriving DecidableEq

def Ev.isWrite : Ev → Bool
  | .write _ => true
  | _ => false

def Ev.isRead : Ev → Bool
  | .read _ => true
  | _ => false

/-- The whole run state: working directory, filesystem, instance heap,
    the `RhpIndex` map (lower-cased absolute path to instance id), the
    strategy counters and the event trace. -/
structure UpdState where
  cwd : List Char
  fs : List (List Char × List Char)
  heap : List RhpRpyx
  indexByAbsPath : List (List Char × Nat)
  strat : RelativePathReplacementStrategy
  events : List Ev
deriving DecidableEq

def dummyRpyx : RhpRpyx := ⟨[], false, [], false, [], []⟩

def dummyUpdState : UpdState := ⟨[], [], [], [], ⟨0, 0, 0, 0, 0⟩, []⟩

/-- Heap access by instance id. -/
def getF (h : List RhpRpyx) (i : Nat) : RhpRpyx := h.getD i dummyRpyx

/-- Heap update by instance id. -/
def setF (h : List RhpRpyx) (i : Nat) (f : RhpRpyx) : List RhpRpyx := h.set i f

/-- `open(path, 'w').write(c)`: overwrite the entry, creating it if absent. -/
def fsWrite (fs : List (List Char × List Char)) (p c : List Char) :
    List (List Char × List Char) :=
  match fs with
  | [] => [(p, c)]
  | (k, v) :: tl => if k = p then (p, c) :: tl else (k, v) :: fsWrite tl p c

/-! ## RhpRpyx methods -/

/-- `RhpRpyx.__init__`: normalize the path to absolute form and record
    whether the file exists (exact-path lookup: a case-sensitive
    filesystem is modelled). -/
def RhpRpyx.construct (cwd : List Char) (fs : List (List Char × List Char))
    (path : List Char) : RhpRpyx :=
  let ap := abspath cwd path
  ⟨ap, (alookup ap fs).isSome, [], false, [], []⟩

/-- `RhpRpyx.joinRelativePath`: absolute location of a relative link,
    built from this file's own absolute path (`Path(absPath).absolute()`
    is `absPath` itself, which is already absolute). -/
def RhpRpyx.joinRelativePath (selfAbsPath rel : List Char) : List Char :=
  normpath (osJoin selfAbsPath rel)

/-- `RhpRpyx.matchToRpyx`: strip the `>`/`<` delimiters, remove the first
    `_rpy`, and append the `.rpyx` extension. -/
def RhpRpyx.matchToRpyx (m : List Char) : List Char :=
  replaceFirst (strL "_rpy") [] (rstripChar '<' (lstripChar '>' m)) ++ strL ".rpyx"

/-- `RhpRpyx.rpyxToMatch`: re-encode a `.rpyx` path as an in-file token. -/
def RhpRpyx.rpyxToMatch (r : List Char) : List Char :=
  strL ">" ++ replaceFirst (strL ".rpyx") [] r ++ strL "_rpy<"

/-- `RhpRpyx.prepareReplacements`: for every absolute link key, map the
    old token to the token of the path relative to this file's own
    absolute path (`os.path.relpath(rhpLink, Path(absPath).absolute())`,
    whose second argument is the file path itself). -/
def RhpRpyx.prepareReplacements (cwd : List Char) (f : RhpRpyx) : RhpRpyx :=
  { f with replacementsDico :=
      f.linksDico.filterMap (fun kv =>
        if isabs kv.1 then
          some (RhpRpyx.rpyxToMatch kv.1,
            RhpRpyx.rpyxToMatch (relpath cwd kv.1 f.absPath))
        else none) }

/-- `RhpRpyx.doReplacements`, pure part: apply every stored replacement to
    the cached content, in insertion order. -/
def RhpRpyx.newContent (f : RhpRpyx) : List Char :=
  f.replacementsDico.foldl (fun c kv => strReplaceAll kv.1 kv.2 c) f.fileContent

/-- `RhpRpyx.linkRpyx`: record a link-map entry on instance `fid`. -/
def RhpRpyx.linkRpyx (st : UpdState) (fid : Nat) (k : List Char) (target : Nat) :
    UpdState :=
  let f := getF st.heap fid
  { st with heap := setF st.heap fid { f with linksDico := dicoSet f.linksDico k target } }

/-- One step of the candidate-construction loop of `getLinkedRpyx`:
    construct the instance for one decoded link (resolving a relative
    link against the reading file's absolute path `baseAbsPath`), append
    it to the heap and record its id. -/
def RhpRpyx.glStep (baseAbsPath : List Char)
    (acc : UpdState × List (List Char × Nat)) (rhpLink : List Char) :
    UpdState × List (List Char × Nat) :=
  let cand := RhpRpyx.construct acc.1.cwd acc.1.fs
    (if isabs rhpLink then rhpLink
     else RhpRpyx.joinRelativePath baseAbsPath rhpLink)
  ({ acc.1 with heap := acc.1.heap ++ [cand] },
    acc.2 ++ [(rhpLink, acc.1.heap.length)])

/-- `RhpRpyx.getLinkedRpyx`: load the content (the instance's only read),
    scan it for tokens, and construct one candidate instance per distinct
    decoded link, resolving relative links against this file's own
    absolute path.  Returns the link-string-to-candidate-id map. -/
def RhpRpyx.getLinkedRpyx (st : UpdState) (fid : Nat) :
    UpdState × List (List Char × Nat) :=
  let f := getF st.heap fid
  let content := (alookup f.absPath st.fs).getD []
  let f' : RhpRpyx := { f with fileContent := content, wasRead := true }
  let st1 : UpdState := { st with heap := setF st.heap fid f',
                                  events := st.events ++ [Ev.read f.absPath] }
  let matchs := pyFindAll content
  let rhpLinksStr := dedupKeepFirst (matchs.map RhpRpyx.matchToRpyx)
  rhpLinksStr.foldl (RhpRpyx.glStep f.absPath) (st1, [])

/-- `RhpRpyx.trace`, as a pure function: the logging level reported for
    each link of `f` (`logging.WARNING = 30` when the target is missing,
    `logging.INFO = 20` when a replacement was computed, else
    `logging.DEBUG = 10`). -/
def RhpRpyx.traceLevels (heap : List RhpRpyx) (f : RhpRpyx) :
    List (List Char × Nat) :=
  f.linksDico.map (fun kv =>
    let rpyx := getF heap kv.2
    let newStr := alookup (RhpRpyx.rpyxToMatch kv.1) f.replacementsDico
    (kv.1, if rpyx.fileExists = false then 30
           else if newStr.isSome then 20 else 10))

/-! ## RhpIndex -/

/-- `RhpIndex.getIndexedRhpyx`: look up by lower-cased absolute path. -/
def RhpIndex.getIndexedRhpyx (st : UpdState) (absolutePath : List Char) :
    Option Nat :=
  alookup (lowerStr absolutePath) st.indexByAbsPath

/-- `RhpIndex.addIndexedRhpyx`: register the instance under its
    lower-cased absolute path unless that identity is already present. -/
def RhpIndex.addIndexedRhpyx (st : UpdState) (fid : Nat) : UpdState :=
  let key := lowerStr (getF st.heap fid).absPath
  match alookup key st.indexByAbsPath with
  | some _ => st
  | none => { st with indexByAbsPath := st.indexByAbsPath ++ [(key, fid)] }

/-! ## RelativePathReplacementStrategy -/

/-- `prepareAndCountReplacements`: compute the file's replacements, then
    add its link and replacement counts to the totals and count the file
    if it produced at least one replacement. -/
def RelativePathReplacementStrategy.prepareAndCountReplacements
    (st : UpdState) (fid : Nat) : UpdState :=
  let f := RhpRpyx.prepareReplacements st.cwd (getF st.heap fid)
  let nb := f.replacementsDico.length
  { st with
    heap := setF st.heap fid f,
    strat := { st.strat with
      replacementCount := st.strat.replacementCount + nb,
      linkCount := st.strat.linkCount + f.linksDico.length,
      fileUpdatedCount := st.strat.fileUpdatedCount + (if 1 ≤ nb then 1 else 0) },
    events := st.events ++ [Ev.prep f.absPath] }

/-- `RelativePathReplacementStrategy.doReplacements`: skip missing files
    and files without replacements; write only while the cap is not
    reached; increment `updatedFileCount` for every eligible file,
    written or not (the increment sits outside the cap test in the
    source). -/
def RelativePathReplacementStrategy.doReplacements (st : UpdState) (fid : Nat) :
    UpdState :=
  let f := getF st.heap fid
  if f.fileExists = false then st
  else if f.replacementsDico.length = 0 then st
  else
    let st' :=
      if st.strat.updatedFileCount < st.strat.maxFileToUpdate then
        { st with fs := fsWrite st.fs f.absPath (RhpRpyx.newContent f),
                  events := st.events ++ [Ev.write f.absPath] }
      else st
    { st' with strat := { st'.strat with
        updatedFileCount := st'.strat.updatedFileCount + 1 } }

/-! ## RhpLinksUpdater -/

/-- One step of the link-registration loop of `searchLinks`: look the
    candidate up in the index, link the reading file `fid` to the
    canonical instance (the indexed one if present, else the candidate),
    register a fresh candidate, and queue it for recursion when it
    exists. -/
def RhpLinksUpdater.slStep (fid : Nat) (acc : UpdState × List Nat)
    (kv : List Char × Nat) : UpdState × List Nat :=
  match RhpIndex.getIndexedRhpyx acc.1 (getF acc.1.heap kv.2).absPath with
  | some iid => (RhpRpyx.linkRpyx acc.1 fid kv.1 iid, acc.2)
  | none =>
    let st1 := RhpRpyx.linkRpyx acc.1 fid kv.1 kv.2
    let st2 := RhpIndex.addIndexedRhpyx st1 kv.2
    if (getF st2.heap kv.2).fileExists then (st2, acc.2 ++ [kv.2])
    else (st2, acc.2)

/-- `RhpLinksUpdater.searchLinks`: discover the file's links, register the
    new targets (linking always to the canonical indexed instance),
    prepare and count the file's replacements, then recurse into the
    newly registered existing targets.  `fuel` bounds the recursion depth
    of the shallow embedding; `none` means the fuel ran out. -/
def RhpLinksUpdater.searchLinks :
    Nat → UpdState → Nat → Int → Option UpdState
  | 0, _, _, _ => none
  | fuel + 1, st, fid, maxDepth =>
    let r := RhpRpyx.getLinkedRpyx st fid
    let l := r.2.foldl (RhpLinksUpdater.slStep fid) (r.1, [])
    let st3 := RelativePathReplacementStrategy.prepareAndCountReplacements l.1 fid
    if maxDepth ≠ 0 then
      l.2.foldlM (fun st cid =>
        RhpLinksUpdater.searchLinks fuel st cid (maxDepth - 1)) st3
    else some st3

/-- One iteration of the seed loop of `RhpLinksUpdater.update`: construct
    the seed instance, perform the index lookup whose result the source
    discards, skip missing seeds, and otherwise traverse with the
    unbounded-depth sentinel `-1`. -/
def RhpLinksUpdater.seedStep (fuel : Nat) (st : UpdState) (p : List Char) :
    Option UpdState :=
  let rhpRpyx := RhpRpyx.construct st.cwd st.fs p
  let sid := st.heap.length
  let st := { st with heap := st.heap ++ [rhpRpyx] }
  let _ := RhpIndex.getIndexedRhpyx st rhpRpyx.absPath
  if rhpRpyx.fileExists = false then some st
  else RhpLinksUpdater.searchLinks fuel st sid (-1)

/-- The discovery half of `RhpLinksUpdater.update`: the seed loop. -/
def RhpLinksUpdater.discoverPhase (fuel : Nat) (st : UpdState)
    (rpyxPathToProcessList : List (List Char)) : Option UpdState :=
  rpyxPathToProcessList.foldlM (RhpLinksUpdater.seedStep fuel) st

/-- The apply half of `RhpLinksUpdater.update`: run the strategy's
    `doReplacements` over every indexed instance, in index insertion
    order. -/
def RhpLinksUpdater.applyPhase (st : UpdState) : UpdState :=
  st.indexByAbsPath.foldl
    (fun st kv => RelativePathReplacementStrategy.doReplacements st kv.2) st

/-- `RhpLinksUpdater.update`: traverse every seed, then apply the
    replacements over the index. -/
def RhpLinksUpdater.update (fuel : Nat) (st : UpdState)
    (rpyxPathToProcessList : List (List Char)) : Option UpdState :=
  (RhpLinksUpdater.discoverPhase fuel st rpyxPathToProcessList).map
    RhpLinksUpdater.applyPhase

/-- Fresh state for a run with the given configuration. -/
def initState (cwd : List Char) (fs : List (List Char × List Char))
    (maxFileToUpdate : Nat) : UpdState :=
  ⟨cwd, fs, [], [], ⟨0, 0, 0, 0, maxFileToUpdate⟩, []⟩

/-- A whole run of the program on a filesystem, seed list and write cap. -/
def run (fuel : Nat) (cwd : List Char) (fs : List (List Char × List Char))
    (seeds : List (List Char)) (cap : Nat) : Option UpdState :=
  RhpLinksUpdater.update fuel (initState cwd fs cap) seeds

/-- Number of read events for path `p`. -/
def countReads (p : List Char) (evs : List Ev) : Nat :=
  evs.countP (fun e => e = Ev.read p)

/-- Number of prepare-and-count events for path `p`. -/
def countPreps (p : List Char) (evs : List Ev) : Nat :=
  evs.countP (fun e => e = Ev.prep p)

/-- Number of file writes in the trace. -/
def countWrites (evs : List Ev) : Nat := evs.countP Ev.isWrite

/-! ## Concrete scenarios

    Each claim that fails on the code gets its own scenario filesystem and
    a closed theorem evaluating the interpreter on it. -/

/-- Scenario of claim C1: seed `/proj/A.rpyx` holds one token whose target
    is the existing, token-free `/proj/sub/X.rpyx`. -/
def fsC1 : List (List Char × List Char) :=
  [(strL "/proj/A.rpyx", strL ">/proj/sub/X_rpy<"),
   (strL "/proj/sub/X.rpyx", strL "nothing")]

/-- The C1 scenario run with write cap 1. -/
def runC1 : Option UpdState := run 10 (strL "/") fsC1 [strL "/proj/A.rpyx"] 1

/-- C1: in the single-token scenario the run does discover exactly the two
    files and computes exactly one replacement in `A`, but the new token
    embeds `../sub/X.rpyx` (the code takes the path relative to `A`'s full
    file path, not to its directory), and even with cap 1 nothing is ever
    written: the seed is never added to the index (`update` performs an
    index lookup and discards the result), so the apply loop never visits
    `A` and the filesystem is left unchanged. -/
theorem C1_seed_never_written :
    runC1.map (fun st => st.events) = some
      [Ev.read (strL "/proj/A.rpyx"), Ev.prep (strL "/proj/A.rpyx"),
       Ev.read (strL "/proj/sub/X.rpyx"), Ev.prep (strL "/proj/sub/X.rpyx")] ∧
    runC1.map (fun st => (getF st.heap 0).replacementsDico) = some
      [(strL ">/proj/sub/X_rpy<", strL ">../sub/X_rpy<")] ∧
    runC1.map (fun st => st.strat.replacementCount) = some 1 ∧
    runC1.map (fun st => countWrites st.events) = some 0 ∧
    runC1.map (fun st => st.fs) = some fsC1 := by
  refine ⟨by decide, by decide, by decide, by decide, by decide⟩

/-- Scenario of claim C3: the seed references its own path with two tokens
    (one per line). -/
def fsC3 : List (List Char × List Char) :=
  [(strL "/proj/A.rpyx", strL ">/proj/A_rpy<\n>/proj/A_rpy<")]

/-- The C3 scenario run. -/
def runC3 : Option UpdState := run 10 (strL "/") fsC3 [strL "/proj/A.rpyx"] 0

/-- C3: two tokens of the seed resolve to the seed's own normalized path,
    yet the run reads that file's content twice and retains two distinct
    read instances of the same normalized identity (ids 0 and 1): the seed
    instance is never registered in the index, so the token's candidate is
    registered as a second canonical instance and traversed again. -/
theorem C3_shared_target_read_twice :
    runC3.map (fun st => countReads (strL "/proj/A.rpyx") st.events) = some 2 ∧
    runC3.map (fun st =>
      ((getF st.heap 0).wasRead, (getF st.heap 1).wasRead,
       decide (lowerStr (getF st.heap 0).absPath = lowerStr (getF st.heap 1).absPath))) =
      some (true, true, true) := by
  refine ⟨by decide, by decide⟩

/-- Scenario of claim C4: a two-file reference cycle, `A` referencing `B`
    and `B` referencing `A`. -/
def fsC4 : List (List Char × List Char) :=
  [(strL "/proj/A.rpyx", strL ">/proj/B_rpy<"),
   (strL "/proj/B.rpyx", strL ">/proj/A_rpy<")]

/-- The C4 scenario run. -/
def runC4 : Option UpdState := run 10 (strL "/") fsC4 [strL "/proj/A.rpyx"] 0

/-- C4: the traversal of the cycle terminates (the run completes on fuel
    10), but the seed file `A` receives two discovery reads: `B`'s
    back-reference to `A` is not found in the index (seeds are never
    registered there), so a duplicate instance of `A` is registered and
    traversed a second time. -/
theorem C4_cycle_terminates_but_rereads_seed :
    runC4.map (fun st => countReads (strL "/proj/A.rpyx") st.events) = some 2 ∧
    runC4.map (fun st => countReads (strL "/proj/B.rpyx") st.events) = some 1 := by
  refine ⟨by decide, by decide⟩

/-- Scenario of claim C5: same shape as C1, with a write cap large enough
    that the cap cannot be the reason a replacement is left pending. -/
def fsC5 : List (List Char × List Char) :=
  [(strL "/proj/A.rpyx", strL ">/proj/sub/X_rpy<"),
   (strL "/proj/sub/X.rpyx", strL "nothing")]

/-- The C5 scenario: a full run, then a second full run on the filesystem
    the first run left behind. -/
def runC5twice : Option UpdState :=
  (run 10 (strL "/") fsC5 [strL "/proj/A.rpyx"] 10).bind (fun st1 =>
    run 10 (strL "/") st1.fs [strL "/proj/A.rpyx"] 10)

/-- C5: running the full process twice is not idempotent: the seed's
    absolute token is never rewritten (the seed is absent from the apply
    loop's index), so the second run recomputes the same replacement and
    its replacement count is 1, not 0. -/
theorem C5_second_run_recomputes_replacements :
    runC5twice.map (fun st => st.strat.replacementCount) = some 1 ∧
    (run 10 (strL "/") fsC5 [strL "/proj/A.rpyx"] 10).map
      (fun st => countWrites st.events) = some 0 := by
  refine ⟨by decide, by decide⟩

/-- State of claim C7's counterexample: one existing file with one pending
    replacement, write cap 0 (the cap has already been reached). -/
def stC7 : UpdState :=
  ⟨strL "/", [(strL "/proj/F.rpyx", strL "x >o_rpy< y")],
   [⟨strL "/proj/F.rpyx", true, strL "x >o_rpy< y", true, [],
     [(strL ">o_rpy<", strL ">n_rpy<")]⟩],
   [(strL "/proj/f.rpyx", 0)], ⟨1, 1, 1, 0, 0⟩, []⟩

/-- C7 counterexample: applying the strategy to an existing file with one
    computed replacement while the cap is already reached performs no
    write, but it does increment `updatedFileCount` (the counter compared
    against the cap) from 0 to 1, contradicting the claim that the
    written-files counter is unchanged. -/
theorem C7_counter_incremented_at_cap :
    (RelativePathReplacementStrategy.doReplacements stC7 0).events = [] ∧
    (RelativePathReplacementStrategy.doReplacements stC7 0).fs = stC7.fs ∧
    (RelativePathReplacementStrategy.doReplacements stC7 0).strat.updatedFileCount = 1 := by
  refine ⟨by decide, by decide, by decide⟩

/-- C8 counterexample: a content with two reference tokens on the same
    line yields a single merged match (the greedy `.*` spans from the
    first `>` to the last `_rpy<` of the line), not one entry per
    occurrence. -/
theorem C8_same_line_tokens_merged :
    pyFindAll (strL ">A_rpy< >B_rpy<") = [strL ">A_rpy< >B_rpy<"] := by decide

/-! ## Token round trip (claim C10) -/

theorem listStartsWith_self : ∀ l : List Char, listStartsWith l l = true := by
  intro l
  induction l with
  | nil => rfl
  | cons c tl ih => simp [listStartsWith, ih]

theorem lstripChar_no_head (ch : Char) (l : List Char)
    (h : l.head? ≠ some ch) : lstripChar ch l = l := by
  cases l with
  | nil => rfl
  | cons c tl =>
    have hc : c ≠ ch := by
      intro he
      exact h (by simp [he])
    simp [lstripChar, hc]

theorem lstrip_gt_token (id : List Char) (h : '>' ∉ id) :
    lstripChar '>' ('>' :: (id ++ strL "_rpy<")) = id ++ strL "_rpy<" := by
  have e1 : lstripChar '>' ('>' :: (id ++ strL "_rpy<")) =
      lstripChar '>' (id ++ strL "_rpy<") := rfl
  rw [e1]
  apply lstripChar_no_head
  cases id with
  | nil => decide
  | cons c tl =>
    have : c ≠ '>' := fun he => h (he ▸ List.mem_cons_self c tl)
    simp [this]

theorem rstrip_lt_token (id : List Char) :
    rstripChar '<' (id ++ strL "_rpy<") = id ++ strL "_rpy" := by
  have hs : strL "_rpy<" = ['_', 'r', 'p', 'y', '<'] := rfl
  have hs2 : (strL "_rpy" : List Char) = ['_', 'r', 'p', 'y'] := rfl
  have hrev : (['_', 'r', 'p', 'y', '<'] : List Char).reverse =
      ['<', 'y', 'p', 'r', '_'] := rfl
  have hstrip : ∀ t : List Char,
      lstripChar '<' ('<' :: 'y' :: 'p' :: 'r' :: '_' :: t) =
        'y' :: 'p' :: 'r' :: '_' :: t := fun _ => rfl
  unfold rstripChar
  rw [hs, hs2, List.reverse_append, hrev]
  show (lstripChar '<' ('<' :: 'y' :: 'p' :: 'r' :: '_' :: id.reverse)).reverse = _
  rw [hstrip]
  simp

theorem replaceFirst_append_pat (pat repl : List Char) (hp : pat ≠ [])
    (hsw : ∀ l : List Char, listStartsWith pat (l ++ pat) = true →
      l = [] ∨ listStartsWith pat l = true) :
    ∀ id : List Char, occursIn pat id = false →
      replaceFirst pat repl (id ++ pat) = id ++ repl := by
  intro id
  induction id with
  | nil =>
    intro _
    obtain ⟨c, cs, rfl⟩ : ∃ c cs, pat = c :: cs := by
      cases pat with
      | nil => exact absurd rfl hp
      | cons c cs => exact ⟨c, cs, rfl⟩
    simp [replaceFirst, listStartsWith_self, List.drop_length]
  | cons c rest ih =>
    intro hocc
    have hocc' : listStartsWith pat (c :: rest) = false ∧ occursIn pat rest = false := by
      have := hocc
      rw [occursIn] at this
      exact ⟨by cases hsw1 : listStartsWith pat (c :: rest) <;>
               simp [hsw1] at this ⊢, by
             cases hsw2 : occursIn pat rest <;> simp [hsw2] at this ⊢⟩
    have hnot : ¬ (pat ≠ [] ∧ listStartsWith pat ((c :: rest) ++ pat) = true) := by
      rintro ⟨-, hs⟩
      rcases hsw (c :: rest) hs with h | h
      · exact List.cons_ne_nil c rest h
      · rw [hocc'.1] at h
        exact Bool.false_ne_true h
    show replaceFirst pat repl (c :: (rest ++ pat)) = (c :: rest) ++ repl
    rw [replaceFirst, if_neg (by simpa using hnot), ih hocc'.2]
    simp

theorem sw_rpy (l : List Char)
    (h : listStartsWith (strL "_rpy") (l ++ strL "_rpy") = true) :
    l = [] ∨ listStartsWith (strL "_rpy") l = true := by
  match l with
  | [] => exact Or.inl rfl
  | [c1] =>
    exfalso
    simp [strL, listStartsWith] at h
  | [c1, c2] =>
    exfalso
    simp [strL, listStartsWith] at h
  | [c1, c2, c3] =>
    exfalso
    simp [strL, listStartsWith] at h
  | c1 :: c2 :: c3 :: c4 :: l4 =>
    right
    simp [strL, listStartsWith] at h ⊢
    exact ⟨h.1, h.2.1, h.2.2.1, h.2.2.2⟩

theorem sw_rpyx (l : List Char)
    (h : listStartsWith (strL ".rpyx") (l ++ strL ".rpyx") = true) :
    l = [] ∨ listStartsWith (strL ".rpyx") l = true := by
  match l with
  | [] => exact Or.inl rfl
  | [c1] =>
    exfalso
    simp [strL, listStartsWith] at h
  | [c1, c2] =>
    exfalso
    simp [strL, listStartsWith] at h
  | [c1, c2, c3] =>
    exfalso
    simp [strL, listStartsWith] at h
  | [c1, c2, c3, c4] =>
    exfalso
    simp [strL, listStartsWith] at h
  | c1 :: c2 :: c3 :: c4 :: c5 :: l5 =>
    right
    simp [strL, listStartsWith] at h ⊢
    exact ⟨h.1, h.2.1, h.2.2.1, h.2.2.2.1, h.2.2.2.2⟩

theorem matchToRpyx_token (id : List Char) (h1 : '>' ∉ id)
    (h3 : occursIn (strL "_rpy") id = false) :
    RhpRpyx.matchToRpyx ('>' :: (id ++ strL "_rpy<")) = id ++ strL ".rpyx" := by
  unfold RhpRpyx.matchToRpyx
  rw [lstrip_gt_token id h1, rstrip_lt_token id,
    replaceFirst_append_pat (strL "_rpy") [] (by decide) sw_rpy id h3]
  simp

theorem rpyxToMatch_token (id : List Char)
    (h4 : occursIn (strL ".rpyx") id = false) :
    RhpRpyx.rpyxToMatch (id ++ strL ".rpyx") = '>' :: (id ++ strL "_rpy<") := by
  unfold RhpRpyx.rpyxToMatch
  rw [replaceFirst_append_pat (strL ".rpyx") [] (by decide) sw_rpyx id h4]
  simp [strL]

/-- C10: for an identifier free of `>`, `<`, `_rpy` and `.rpyx`, decoding
    the in-file token to a `.rpyx` path and re-encoding it is the
    identity, so the old-token keys built by `prepareReplacements` are the
    very tokens that occur in the file content. -/
theorem C10_token_roundtrip (id : List Char) (h1 : '>' ∉ id) (_h2 : '<' ∉ id)
    (h3 : occursIn (strL "_rpy") id = false)
    (h4 : occursIn (strL ".rpyx") id = false) :
    RhpRpyx.rpyxToMatch (RhpRpyx.matchToRpyx ('>' :: (id ++ strL "_rpy<"))) =
      '>' :: (id ++ strL "_rpy<") := by
  rw [matchToRpyx_token id h1 h3, rpyxToMatch_token id h4]

/-- C10 witness: the round trip at the concrete identifier `abc`. -/
theorem C10_token_roundtrip_witness :
    ('>' ∉ strL "abc") ∧ ('<' ∉ strL "abc") ∧
    occursIn (strL "_rpy") (strL "abc") = false ∧
    occursIn (strL ".rpyx") (strL "abc") = false ∧
    RhpRpyx.rpyxToMatch (RhpRpyx.matchToRpyx ('>' :: (strL "abc" ++ strL "_rpy<"))) =
      '>' :: (strL "abc" ++ strL "_rpy<") :=
  ⟨by decide, by decide, by decide, by decide,
    C10_token_roundtrip (strL "abc") (by decide) (by decide) (by decide) (by decide)⟩

/-! ## Per-line match count (claim C8) -/

theorem occursIn_iff (p : List Char) :
    ∀ s : List Char, occursIn p s = true ↔
      ∃ k, listStartsWith p (s.drop k) = true := by
  intro s
  induction s with
  | nil =>
    constructor
    · intro h
      refine ⟨0, ?_⟩
      cases p with
      | nil => rfl
      | cons c cs => simp [occursIn, List.isEmpty] at h
    · rintro ⟨k, hk⟩
      cases p with
      | nil => rfl
      | cons c cs => simp [listStartsWith, List.drop_nil] at hk
  | cons c tl ih =>
    rw [occursIn, Bool.or_eq_true]
    constructor
    · rintro (h | h)
      · exact ⟨0, h⟩
      · obtain ⟨k, hk⟩ := ih.mp h
        exact ⟨k + 1, hk⟩
    · rintro ⟨k, hk⟩
      cases k with
      | zero => exact Or.inl hk
      | succ k => exact Or.inr (ih.mpr ⟨k, hk⟩)

theorem lastOcc_none (p : List Char) (hp : p ≠ []) :
    ∀ s, lastOcc p s = none →
      ∀ k, listStartsWith p (s.drop k) = false := by
  intro s
  induction s with
  | nil =>
    intro _ k
    rw [List.drop_nil]
    cases p with
    | nil => exact absurd rfl hp
    | cons c cs => rfl
  | cons c tl ih =>
    intro h k
    rw [lastOcc] at h
    cases hl : lastOcc p tl with
    | some j => rw [hl] at h; cases h
    | none =>
      rw [hl] at h
      by_cases hs : listStartsWith p (c :: tl) = true
      · rw [if_pos hs] at h; cases h
      · cases k with
        | zero =>
          simp only [List.drop_zero]
          exact Bool.not_eq_true _ ▸ Bool.of_not_eq_true hs
        | succ k => exact ih hl k

theorem lastOcc_startsWith (p : List Char) :
    ∀ s j, lastOcc p s = some j → listStartsWith p (s.drop j) = true := by
  intro s
  induction s with
  | nil => intro j h; simp [lastOcc] at h
  | cons c tl ih =>
    intro j h
    rw [lastOcc] at h
    cases hl : lastOcc p tl with
    | some j' =>
      rw [hl] at h
      cases h
      exact ih j' hl
    | none =>
      rw [hl] at h
      by_cases hs : listStartsWith p (c :: tl) = true
      · rw [if_pos hs] at h
        cases h
        exact hs
      · rw [if_neg hs] at h
        cases h

theorem lastOcc_max (p : List Char) (hp : p ≠ []) :
    ∀ s j, lastOcc p s = some j →
      ∀ k, listStartsWith p (s.drop k) = true → k ≤ j := by
  intro s
  induction s with
  | nil => intro j h; simp [lastOcc] at h
  | cons c tl ih =>
    intro j h k hk
    rw [lastOcc] at h
    cases hl : lastOcc p tl with
    | some j' =>
      rw [hl] at h
      cases h
      cases k with
      | zero => exact Nat.zero_le _
      | succ k => exact Nat.succ_le_succ (ih j' hl k hk)
    | none =>
      rw [hl] at h
      by_cases hs : listStartsWith p (c :: tl) = true
      · rw [if_pos hs] at h
        cases h
        cases k with
        | zero => exact Nat.le_refl 0
        | succ k =>
          exfalso
          have := lastOcc_none p hp tl hl k
          rw [List.drop_succ_cons] at hk
          rw [hk] at this
          exact absurd this (by decide)
      · rw [if_neg hs] at h
        cases h

theorem lastOcc_rest_free (p : List Char) (hp : p ≠ []) (s : List Char)
    (j : Nat) (h : lastOcc p s = some j) :
    occursIn p (s.drop (j + p.length)) = false := by
  cases ho : occursIn p (s.drop (j + p.length)) with
  | false => rfl
  | true =>
    exfalso
    obtain ⟨k, hk⟩ := (occursIn_iff p _).mp ho
    rw [List.drop_drop] at hk
    have hle := lastOcc_max p hp s j h (j + p.length + k) hk
    have : 0 < p.length := List.length_pos.mpr hp
    omega

theorem lastOcc_none_of_occursIn_false (p : List Char) :
    ∀ s, occursIn p s = false → lastOcc p s = none := by
  intro s h
  cases hl : lastOcc p s with
  | none => rfl
  | some j =>
    exfalso
    have hs := lastOcc_startsWith p s j hl
    have : occursIn p s = true := (occursIn_iff p s).mpr ⟨j, hs⟩
    rw [h] at this
    exact absurd this (by decide)

theorem occursIn_tail_false (p : List Char) (c : Char) (tl : List Char)
    (h : occursIn p (c :: tl) = false) : occursIn p tl = false := by
  rw [occursIn, Bool.or_eq_false_iff] at h
  exact h.2

theorem scanLineF_of_occursIn_false :
    ∀ fuel s, occursIn rpyMarker s = false → scanLineF fuel s = [] := by
  intro fuel
  induction fuel with
  | zero => intro s _; rfl
  | succ fuel ih =>
    intro s h
    cases s with
    | nil => rfl
    | cons c tl =>
      have htl : occursIn rpyMarker tl = false := occursIn_tail_false _ c tl h
      rw [scanLineF]
      by_cases hc : (c == '>') = true
      · rw [if_pos hc, lastOcc_none_of_occursIn_false rpyMarker tl htl]
        exact ih tl htl
      · rw [if_neg hc]
        exact ih tl htl

theorem scanLineF_count :
    ∀ fuel s, s.length ≤ fuel →
      (scanLineF fuel s).length = if hasTok s then 1 else 0 := by
  intro fuel
  induction fuel with
  | zero =>
    intro s hs
    have : s = [] := List.eq_nil_of_length_eq_zero (Nat.le_zero.mp hs)
    subst this
    rfl
  | succ fuel ih =>
    intro s hs
    cases s with
    | nil => rfl
    | cons c tl =>
      have htl : tl.length ≤ fuel := by
        simpa [List.length_cons, Nat.succ_le_succ_iff] using hs
      rw [scanLineF, hasTok]
      by_cases hc : (c == '>') = true
      · rw [if_pos hc]
        cases hl : lastOcc rpyMarker tl with
        | some j =>
          have hocc : occursIn rpyMarker tl = true :=
            (occursIn_iff rpyMarker tl).mpr ⟨j, lastOcc_startsWith rpyMarker tl j hl⟩
          have hfree := lastOcc_rest_free rpyMarker (by decide) tl j hl
          simp [scanLineF_of_occursIn_false fuel _ hfree, hc, hocc]
        | none =>
          have hocc : occursIn rpyMarker tl = false := by
            cases ho : occursIn rpyMarker tl with
            | false => rfl
            | true =>
              exfalso
              obtain ⟨k, hk⟩ := (occursIn_iff rpyMarker tl).mp ho
              have := lastOcc_none rpyMarker (by decide) tl hl k
              rw [hk] at this
              exact absurd this (by decide)
          rw [ih tl htl]
          simp [hc, hocc]
      · rw [if_neg hc]
        rw [ih tl htl]
        have hc' : (c == '>') = false := Bool.of_not_eq_true hc
        simp [hc']

theorem scanLine_count (s : List Char) :
    (scanLine s).length = if hasTok s then 1 else 0 :=
  scanLineF_count s.length s (Nat.le_refl _)

/-- C8 (amended): `discoverLinks` yields exactly one match per line that
    contains at least one reference-token occurrence; two occurrences on
    the same line are merged into that line's single greedy match. -/
theorem C8_one_match_per_token_line (content : List Char) :
    (pyFindAll content).length =
      ((splitLines content).filter (fun l => hasTok l)).length := by
  unfold pyFindAll
  induction splitLines content with
  | nil => rfl
  | cons l ls ih =>
    rw [List.flatMap_cons, List.filter_cons, List.length_append, ih,
      scanLine_count l]
    by_cases h : hasTok l = true
    · simp [h, Nat.add_comm]
    · have h' : hasTok l = false := Bool.of_not_eq_true h
      simp [h']

/-! ## Basic lemmas about the state primitives -/

theorem alookup_mem {β : Type} (k : List Char) (d : List (List Char × β)) (v : β)
    (h : alookup k d = some v) : (k, v) ∈ d := by
  induction d with
  | nil => simp [alookup] at h
  | cons kv tl ih =>
    obtain ⟨k', v'⟩ := kv
    rw [alookup] at h
    by_cases he : k = k'
    · rw [if_pos he] at h
      cases h
      subst he
      exact List.mem_cons_self _ _
    · rw [if_neg he] at h
      exact List.mem_cons_of_mem _ (ih h)

theorem alookup_append_some {β : Type} (k : List Char)
    (d e : List (List Char × β)) (v : β) (h : alookup k d = some v) :
    alookup k (d ++ e) = some v := by
  induction d with
  | nil => simp [alookup] at h
  | cons kv tl ih =>
    obtain ⟨k', v'⟩ := kv
    rw [alookup] at h
    rw [List.cons_append, alookup]
    by_cases he : k = k'
    · rw [if_pos he] at h ⊢
      exact h
    · rw [if_neg he] at h ⊢
      exact ih h

theorem alookup_append_none {β : Type} (k : List Char)
    (d e : List (List Char × β)) (h : alookup k d = none) :
    alookup k (d ++ e) = alookup k e := by
  induction d with
  | nil => simp
  | cons kv tl ih =>
    obtain ⟨k', v'⟩ := kv
    rw [alookup] at h
    rw [List.cons_append, alookup]
    by_cases he : k = k'
    · rw [if_pos he] at h
      cases h
    · rw [if_neg he] at h ⊢
      exact ih h

theorem dicoSet_mem {β : Type} (d : List (List Char × β)) (k : List Char)
    (v : β) (kv' : List Char × β) (h : kv' ∈ dicoSet d k v) :
    kv' ∈ d ∨ kv' = (k, v) := by
  induction d with
  | nil =>
    rw [dicoSet] at h
    rcases List.mem_singleton.mp h with rfl
    exact Or.inr rfl
  | cons kv0 tl ih =>
    obtain ⟨k0, v0⟩ := kv0
    rw [dicoSet] at h
    by_cases he : k0 = k
    · rw [if_pos he] at h
      rcases List.mem_cons.mp h with rfl | hm
      · exact Or.inr rfl
      · exact Or.inl (List.mem_cons_of_mem _ hm)
    · rw [if_neg he] at h
      rcases List.mem_cons.mp h with rfl | hm
      · exact Or.inl (List.mem_cons_self _ _)
      · rcases ih hm with hm' | hm'
        · exact Or.inl (List.mem_cons_of_mem _ hm')
        · exact Or.inr hm'

theorem getF_set_self (h : List RhpRpyx) (i : Nat) (f : RhpRpyx)
    (hi : i < h.length) : getF (setF h i f) i = f := by
  unfold getF setF
  rw [List.getD_eq_getElem _ _ (by simpa using hi)]
  simp [List.getElem_set]

theorem getF_set_ne (h : List RhpRpyx) (i : Nat) (f : RhpRpyx) (j : Nat)
    (hji : j ≠ i) : getF (setF h i f) j = getF h j := by
  unfold getF setF
  by_cases hj : j < h.length
  · rw [List.getD_eq_getElem _ _ (by simpa using hj),
      List.getD_eq_getElem _ _ hj]
    rw [List.getElem_set_ne (by omega)]
  · rw [List.getD_eq_default _ _ (by simpa using Nat.le_of_not_lt hj),
      List.getD_eq_default _ _ (Nat.le_of_not_lt hj)]

theorem getF_append_lt (h e : List RhpRpyx) (j : Nat) (hj : j < h.length) :
    getF (h ++ e) j = getF h j :=
  List.getD_append h e dummyRpyx j hj

theorem getF_append_right (h e : List RhpRpyx) (j : Nat)
    (hj : h.length ≤ j) : getF (h ++ e) j = getF e (j - h.length) :=
  List.getD_append_right h e dummyRpyx j hj

theorem setF_length (h : List RhpRpyx) (i : Nat) (f : RhpRpyx) :
    (setF h i f).length = h.length := List.length_set h i f

theorem setF_of_ge (h : List RhpRpyx) (i : Nat) (f : RhpRpyx)
    (hi : h.length ≤ i) : setF h i f = h := List.set_eq_of_length_le hi

/-! ## The frame relation preserved by every discovery operation -/

/-- Facts relating a state to any later state of the discovery phase:
    configuration and filesystem unchanged, write counter unchanged, only
    non-write events appended, heap grown with identity fields stable,
    and index entries preserved. -/
structure StepRel (st st' : UpdState) : Prop where
  cwd_eq : st'.cwd = st.cwd
  fs_eq : st'.fs = st.fs
  cap_eq : st'.strat.maxFileToUpdate = st.strat.maxFileToUpdate
  upd_eq : st'.strat.updatedFileCount = st.strat.updatedFileCount
  events_ext : ∃ t, st'.events = st.events ++ t ∧ ∀ e ∈ t, e.isWrite = false
  heap_len : st.heap.length ≤ st'.heap.length
  heap_stable : ∀ i, i < st.heap.length →
    (getF st'.heap i).absPath = (getF st.heap i).absPath ∧
    (getF st'.heap i).fileExists = (getF st.heap i).fileExists
  index_mono : ∀ k v, alookup k st.indexByAbsPath = some v →
    alookup k st'.indexByAbsPath = some v

theorem stepRel_refl (st : UpdState) : StepRel st st :=
  ⟨rfl, rfl, rfl, rfl, ⟨[], by simp, by simp⟩, Nat.le_refl _,
    fun _ _ => ⟨rfl, rfl⟩, fun _ _ h => h⟩

theorem stepRel_trans {a b c : UpdState} (h1 : StepRel a b) (h2 : StepRel b c) :
    StepRel a c := by
  refine ⟨h2.cwd_eq.trans h1.cwd_eq, h2.fs_eq.trans h1.fs_eq,
    h2.cap_eq.trans h1.cap_eq, h2.upd_eq.trans h1.upd_eq, ?_,
    Nat.le_trans h1.heap_len h2.heap_len, ?_, ?_⟩
  · obtain ⟨t1, he1, hw1⟩ := h1.events_ext
    obtain ⟨t2, he2, hw2⟩ := h2.events_ext
    refine ⟨t1 ++ t2, by rw [he2, he1, List.append_assoc], ?_⟩
    intro e he
    rcases List.mem_append.mp he with h | h
    · exact hw1 e h
    · exact hw2 e h
  · intro i hi
    obtain ⟨ha, hb⟩ := h1.heap_stable i hi
    obtain ⟨ha', hb'⟩ := h2.heap_stable i (Nat.lt_of_lt_of_le hi h1.heap_len)
    exact ⟨ha'.trans ha, hb'.trans hb⟩
  · intro k v h
    exact h2.index_mono k v (h1.index_mono k v h)

theorem stepRel_linkRpyx (st : UpdState) (fid : Nat) (k : List Char)
    (t : Nat) : StepRel st (RhpRpyx.linkRpyx st fid k t) := by
  unfold RhpRpyx.linkRpyx
  refine ⟨rfl, rfl, rfl, rfl, ⟨[], by simp, by simp⟩, ?_, ?_, fun _ _ h => h⟩
  · rw [setF_length]
  · intro i hi
    by_cases he : i = fid
    · subst he
      rw [getF_set_self _ _ _ hi]
      exact ⟨rfl, rfl⟩
    · rw [getF_set_ne _ _ _ _ he]
      exact ⟨rfl, rfl⟩

theorem stepRel_addIndexed (st : UpdState) (fid : Nat) :
    StepRel st (RhpIndex.addIndexedRhpyx st fid) := by
  unfold RhpIndex.addIndexedRhpyx
  cases hl : alookup (lowerStr (getF st.heap fid).absPath) st.indexByAbsPath with
  | some iid =>
    simp only [hl]
    exact stepRel_refl st
  | none =>
    simp only [hl]
    refine ⟨rfl, rfl, rfl, rfl, ⟨[], by simp, by simp⟩, Nat.le_refl _,
      fun _ _ => ⟨rfl, rfl⟩, ?_⟩
    intro k v h
    exact alookup_append_some k _ _ v h

theorem stepRel_prepare (st : UpdState) (fid : Nat) :
    StepRel st (RelativePathReplacementStrategy.prepareAndCountReplacements st fid) := by
  unfold RelativePathReplacementStrategy.prepareAndCountReplacements
  refine ⟨rfl, rfl, rfl, rfl,
    ⟨[Ev.prep (RhpRpyx.prepareReplacements st.cwd (getF st.heap fid)).absPath],
      rfl, by simp [Ev.isWrite]⟩, ?_, ?_, fun _ _ h => h⟩
  · rw [setF_length]
  · intro i hi
    by_cases he : i = fid
    · subst he
      rw [getF_set_self _ _ _ hi]
      exact ⟨rfl, rfl⟩
    · rw [getF_set_ne _ _ _ _ he]
      exact ⟨rfl, rfl⟩

theorem stepRel_glStep (b : List Char) (acc : UpdState × List (List Char × Nat))
    (x : List Char) : StepRel acc.1 (RhpRpyx.glStep b acc x).1 := by
  unfold RhpRpyx.glStep
  refine ⟨rfl, rfl, rfl, rfl, ⟨[], by simp, by simp⟩, ?_, ?_, fun _ _ h => h⟩
  · simp
  · intro i hi
    rw [getF_append_lt _ _ _ hi]
    exact ⟨rfl, rfl⟩

theorem stepRel_glFoldAux (b : List Char) :
    ∀ (links : List (List Char)) (acc : UpdState × List (List Char × Nat)),
      StepRel acc.1 ((links.foldl (RhpRpyx.glStep b) acc).1) := by
  intro links
  induction links with
  | nil => intro acc; exact stepRel_refl _
  | cons x tl ih =>
    intro acc
    rw [List.foldl_cons]
    exact stepRel_trans (stepRel_glStep b acc x) (ih _)

theorem stepRel_glFold (b : List Char) (links : List (List Char))
    (s : UpdState) (out : List (List Char × Nat)) :
    StepRel s ((links.foldl (RhpRpyx.glStep b) (s, out)).1) :=
  stepRel_glFoldAux b links (s, out)

theorem stepRel_getLinkedRpyx (st : UpdState) (fid : Nat) :
    StepRel st (RhpRpyx.getLinkedRpyx st fid).1 := by
  have h1 : StepRel st { st with
      heap := setF st.heap fid
        { getF st.heap fid with
          fileContent := (alookup (getF st.heap fid).absPath st.fs).getD [],
          wasRead := true },
      events := st.events ++ [Ev.read (getF st.heap fid).absPath] } := by
    refine ⟨rfl, rfl, rfl, rfl,
      ⟨[Ev.read (getF st.heap fid).absPath], rfl, by simp [Ev.isWrite]⟩,
      ?_, ?_, fun _ _ h => h⟩
    · rw [setF_length]
    · intro i hi
      by_cases he : i = fid
      · subst he
        rw [getF_set_self _ _ _ hi]
        exact ⟨rfl, rfl⟩
      · rw [getF_set_ne _ _ _ _ he]
        exact ⟨rfl, rfl⟩
  simp only [RhpRpyx.getLinkedRpyx]
  exact stepRel_trans h1 (stepRel_glFold _ _ _ _)

theorem stepRel_slStep (fid : Nat) (acc : UpdState × List Nat)
    (kv : List Char × Nat) : StepRel acc.1 ((RhpLinksUpdater.slStep fid acc kv).1) := by
  unfold RhpLinksUpdater.slStep
  cases hl : RhpIndex.getIndexedRhpyx acc.1 (getF acc.1.heap kv.2).absPath with
  | some iid =>
    simp only
    exact stepRel_linkRpyx _ _ _ _
  | none =>
    simp only
    split
    · exact stepRel_trans (stepRel_linkRpyx _ _ _ _) (stepRel_addIndexed _ _)
    · exact stepRel_trans (stepRel_linkRpyx _ _ _ _) (stepRel_addIndexed _ _)

theorem stepRel_slFoldAux (fid : Nat) :
    ∀ (kvs : List (List Char × Nat)) (acc : UpdState × List Nat),
      StepRel acc.1 ((kvs.foldl (RhpLinksUpdater.slStep fid) acc).1) := by
  intro kvs
  induction kvs with
  | nil => intro acc; exact stepRel_refl _
  | cons kv tl ih =>
    intro acc
    rw [List.foldl_cons]
    exact stepRel_trans (stepRel_slStep fid acc kv) (ih _)

theorem stepRel_slFold (fid : Nat) (kvs : List (List Char × Nat))
    (s : UpdState) (out : List Nat) :
    StepRel s ((kvs.foldl (RhpLinksUpdater.slStep fid) (s, out)).1) :=
  stepRel_slFoldAux fid kvs (s, out)

theorem stepRel_foldlM {α : Type}
    (g : UpdState → α → Option UpdState)
    (hg : ∀ s x s', g s x = some s' → StepRel s s') :
    ∀ (l : List α) (st0 st' : UpdState),
      List.foldlM g st0 l = some st' → StepRel st0 st' := by
  intro l
  induction l with
  | nil =>
    intro st0 st' h
    cases h
    exact stepRel_refl _
  | cons x tl ih =>
    intro st0 st' h
    rw [List.foldlM_cons] at h
    rcases Option.bind_eq_some.mp h with ⟨mid, hmid, hrest⟩
    exact stepRel_trans (hg st0 x mid hmid) (ih mid st' hrest)

theorem stepRel_searchLinks :
    ∀ (fuel : Nat) (st : UpdState) (fid : Nat) (d : Int) (st' : UpdState),
      RhpLinksUpdater.searchLinks fuel st fid d = some st' → StepRel st st' := by
  intro fuel
  induction fuel with
  | zero => intro st fid d st' h; cases h
  | succ fuel ih =>
    intro st fid d st' h
    simp only [RhpLinksUpdater.searchLinks] at h
    have hrel3 : StepRel st
        (RelativePathReplacementStrategy.prepareAndCountReplacements
          (((RhpRpyx.getLinkedRpyx st fid).2.foldl (RhpLinksUpdater.slStep fid)
            ((RhpRpyx.getLinkedRpyx st fid).1, [])).1) fid) :=
      stepRel_trans (stepRel_getLinkedRpyx st fid)
        (stepRel_trans (stepRel_slFold fid _ _ _) (stepRel_prepare _ fid))
    by_cases hd : d ≠ 0
    · rw [if_pos hd] at h
      exact stepRel_trans hrel3
        (stepRel_foldlM _ (fun s x s' hx => ih s x (d - 1) s' hx) _ _ _ h)
    · rw [if_neg hd] at h
      cases h
      exact hrel3

/-! ## Pointwise and frame lemmas for the discovery operations -/

theorem linkRpyx_frame (st : UpdState) (fid : Nat) (k : List Char) (t : Nat) :
    (RhpRpyx.linkRpyx st fid k t).cwd = st.cwd ∧
    (RhpRpyx.linkRpyx st fid k t).fs = st.fs ∧
    (RhpRpyx.linkRpyx st fid k t).indexByAbsPath = st.indexByAbsPath ∧
    (RhpRpyx.linkRpyx st fid k t).strat = st.strat ∧
    (RhpRpyx.linkRpyx st fid k t).events = st.events ∧
    (RhpRpyx.linkRpyx st fid k t).heap.length = st.heap.length :=
  ⟨rfl, rfl, rfl, rfl, rfl, setF_length _ _ _⟩

theorem linkRpyx_fields (st : UpdState) (fid : Nat) (k : List Char) (t : Nat)
    (j : Nat) :
    (getF (RhpRpyx.linkRpyx st fid k t).heap j).absPath = (getF st.heap j).absPath ∧
    (getF (RhpRpyx.linkRpyx st fid k t).heap j).fileExists = (getF st.heap j).fileExists ∧
    (getF (RhpRpyx.linkRpyx st fid k t).heap j).wasRead = (getF st.heap j).wasRead := by
  simp only [RhpRpyx.linkRpyx]
  by_cases he : j = fid
  · subst he
    by_cases hj : j < st.heap.length
    · rw [getF_set_self _ _ _ hj]
      exact ⟨rfl, rfl, rfl⟩
    · rw [setF_of_ge _ _ _ (Nat.le_of_not_lt hj)]
      exact ⟨rfl, rfl, rfl⟩
  · rw [getF_set_ne _ _ _ _ he]
    exact ⟨rfl, rfl, rfl⟩

theorem addIndexed_frame (st : UpdState) (fid : Nat) :
    (RhpIndex.addIndexedRhpyx st fid).cwd = st.cwd ∧
    (RhpIndex.addIndexedRhpyx st fid).fs = st.fs ∧
    (RhpIndex.addIndexedRhpyx st fid).heap = st.heap ∧
    (RhpIndex.addIndexedRhpyx st fid).strat = st.strat ∧
    (RhpIndex.addIndexedRhpyx st fid).events = st.events := by
  simp only [RhpIndex.addIndexedRhpyx]
  cases h : alookup (lowerStr (getF st.heap fid).absPath) st.indexByAbsPath with
  | some iid => simp [h]
  | none => simp [h]

theorem prepare_frame (st : UpdState) (fid : Nat) :
    (RelativePathReplacementStrategy.prepareAndCountReplacements st fid).cwd = st.cwd ∧
    (RelativePathReplacementStrategy.prepareAndCountReplacements st fid).fs = st.fs ∧
    (RelativePathReplacementStrategy.prepareAndCountReplacements st fid).indexByAbsPath =
      st.indexByAbsPath ∧
    (RelativePathReplacementStrategy.prepareAndCountReplacements st fid).events =
      st.events ++ [Ev.prep (getF st.heap fid).absPath] ∧
    (RelativePathReplacementStrategy.prepareAndCountReplacements st fid).heap.length =
      st.heap.length :=
  ⟨rfl, rfl, rfl, rfl, setF_length _ _ _⟩

theorem prepare_fields (st : UpdState) (fid : Nat) (j : Nat) :
    (getF (RelativePathReplacementStrategy.prepareAndCountReplacements st fid).heap j).absPath =
      (getF st.heap j).absPath ∧
    (getF (RelativePathReplacementStrategy.prepareAndCountReplacements st fid).heap j).fileExists =
      (getF st.heap j).fileExists ∧
    (getF (RelativePathReplacementStrategy.prepareAndCountReplacements st fid).heap j).wasRead =
      (getF st.heap j).wasRead ∧
    (getF (RelativePathReplacementStrategy.prepareAndCountReplacements st fid).heap j).linksDico =
      (getF st.heap j).linksDico := by
  simp only [RelativePathReplacementStrategy.prepareAndCountReplacements]
  by_cases he : j = fid
  · subst he
    by_cases hj : j < st.heap.length
    · rw [getF_set_self _ _ _ hj]
      exact ⟨rfl, rfl, rfl, rfl⟩
    · rw [setF_of_ge _ _ _ (Nat.le_of_not_lt hj)]
      exact ⟨rfl, rfl, rfl, rfl⟩
  · rw [getF_set_ne _ _ _ _ he]
    exact ⟨rfl, rfl, rfl, rfl⟩

theorem glFold_frame (b : List Char) :
    ∀ (links : List (List Char)) (acc : UpdState × List (List Char × Nat)),
      ((links.foldl (RhpRpyx.glStep b) acc).1.cwd = acc.1.cwd) ∧
      ((links.foldl (RhpRpyx.glStep b) acc).1.fs = acc.1.fs) ∧
      ((links.foldl (RhpRpyx.glStep b) acc).1.indexByAbsPath = acc.1.indexByAbsPath) ∧
      ((links.foldl (RhpRpyx.glStep b) acc).1.strat = acc.1.strat) ∧
      ((links.foldl (RhpRpyx.glStep b) acc).1.events = acc.1.events) := by
  intro links
  induction links with
  | nil => intro acc; exact ⟨rfl, rfl, rfl, rfl, rfl⟩
  | cons x tl ih =>
    intro acc
    rw [List.foldl_cons]
    obtain ⟨h1, h2, h3, h4, h5⟩ := ih (RhpRpyx.glStep b acc x)
    exact ⟨h1, h2, h3, h4, h5⟩

theorem glFold_heap (b : List Char) :
    ∀ (links : List (List Char)) (acc : UpdState × List (List Char × Nat)),
      ∃ cands : List RhpRpyx,
        (links.foldl (RhpRpyx.glStep b) acc).1.heap = acc.1.heap ++ cands ∧
        ∀ g ∈ cands, g.wasRead = false ∧ g.linksDico = [] ∧
          g.fileExists = (alookup g.absPath acc.1.fs).isSome := by
  intro links
  induction links with
  | nil =>
    intro acc
    exact ⟨[], by simp, by simp⟩
  | cons x tl ih =>
    intro acc
    rw [List.foldl_cons]
    obtain ⟨cands, hheap, hprop⟩ := ih (RhpRpyx.glStep b acc x)
    refine ⟨RhpRpyx.construct acc.1.cwd acc.1.fs
      (if isabs x then x else RhpRpyx.joinRelativePath b x) :: cands, ?_, ?_⟩
    · rw [hheap]
      simp [RhpRpyx.glStep]
    · intro g hg
      rcases List.mem_cons.mp hg with rfl | hg'
      · exact ⟨rfl, rfl, rfl⟩
      · exact hprop g hg'

theorem glFold_heapLen_mono (b : List Char) :
    ∀ (links : List (List Char)) (acc : UpdState × List (List Char × Nat)),
      acc.1.heap.length ≤ (links.foldl (RhpRpyx.glStep b) acc).1.heap.length := by
  intro links acc
  exact (stepRel_glFoldAux b links acc).heap_len

theorem glFold_ids (b : List Char) :
    ∀ (links : List (List Char)) (acc : UpdState × List (List Char × Nat)),
      ∀ x ∈ (links.foldl (RhpRpyx.glStep b) acc).2,
        x ∈ acc.2 ∨ x.2 < (links.foldl (RhpRpyx.glStep b) acc).1.heap.length := by
  intro links
  induction links with
  | nil => intro acc x hx; exact Or.inl hx
  | cons y tl ih =>
    intro acc x hx
    rw [List.foldl_cons] at hx ⊢
    rcases ih (RhpRpyx.glStep b acc y) x hx with hm | hm
    · rcases List.mem_append.mp hm with hm' | hm'
      · exact Or.inl hm'
      · right
        rcases List.mem_singleton.mp hm' with rfl
        calc acc.1.heap.length < (RhpRpyx.glStep b acc y).1.heap.length := by
              simp [RhpRpyx.glStep]
          _ ≤ _ := glFold_heapLen_mono b tl _
    · exact Or.inr hm

theorem slStep_frame (fid : Nat) (acc : UpdState × List Nat)
    (kv : List Char × Nat) :
    ((RhpLinksUpdater.slStep fid acc kv).1.cwd = acc.1.cwd) ∧
    ((RhpLinksUpdater.slStep fid acc kv).1.fs = acc.1.fs) ∧
    ((RhpLinksUpdater.slStep fid acc kv).1.strat = acc.1.strat) ∧
    ((RhpLinksUpdater.slStep fid acc kv).1.events = acc.1.events) ∧
    ((RhpLinksUpdater.slStep fid acc kv).1.heap.length = acc.1.heap.length) := by
  simp only [RhpLinksUpdater.slStep]
  cases h : RhpIndex.getIndexedRhpyx acc.1 (getF acc.1.heap kv.2).absPath with
  | some iid =>
    simp only
    obtain ⟨h1, h2, h3, h4, h5, h6⟩ := linkRpyx_frame acc.1 fid kv.1 iid
    exact ⟨h1, h2, h4, h5, h6⟩
  | none =>
    simp only
    obtain ⟨l1, l2, l3, l4, l5, l6⟩ := linkRpyx_frame acc.1 fid kv.1 kv.2
    obtain ⟨a1, a2, a3, a4, a5⟩ :=
      addIndexed_frame (RhpRpyx.linkRpyx acc.1 fid kv.1 kv.2) kv.2
    split
    · exact ⟨a1.trans l1, a2.trans l2, a4.trans l4, a5.trans l5,
        (congrArg List.length a3).trans l6⟩
    · exact ⟨a1.trans l1, a2.trans l2, a4.trans l4, a5.trans l5,
        (congrArg List.length a3).trans l6⟩

theorem slStep_fields (fid : Nat) (acc : UpdState × List Nat)
    (kv : List Char × Nat) (j : Nat) :
    ((getF (RhpLinksUpdater.slStep fid acc kv).1.heap j).absPath =
      (getF acc.1.heap j).absPath) ∧
    ((getF (RhpLinksUpdater.slStep fid acc kv).1.heap j).fileExists =
      (getF acc.1.heap j).fileExists) ∧
    ((getF (RhpLinksUpdater.slStep fid acc kv).1.heap j).wasRead =
      (getF acc.1.heap j).wasRead) := by
  simp only [RhpLinksUpdater.slStep]
  cases h : RhpIndex.getIndexedRhpyx acc.1 (getF acc.1.heap kv.2).absPath with
  | some iid =>
    simp only
    exact linkRpyx_fields acc.1 fid kv.1 iid j
  | none =>
    simp only
    obtain ⟨l1, l2, l3⟩ := linkRpyx_fields acc.1 fid kv.1 kv.2 j
    have ha := (addIndexed_frame (RhpRpyx.linkRpyx acc.1 fid kv.1 kv.2) kv.2).2.2.1
    split
    · rw [ha]
      exact ⟨l1, l2, l3⟩
    · rw [ha]
      exact ⟨l1, l2, l3⟩

theorem slFold_frame (fid : Nat) :
    ∀ (kvs : List (List Char × Nat)) (acc : UpdState × List Nat),
      ((kvs.foldl (RhpLinksUpdater.slStep fid) acc).1.cwd = acc.1.cwd) ∧
      ((kvs.foldl (RhpLinksUpdater.slStep fid) acc).1.fs = acc.1.fs) ∧
      ((kvs.foldl (RhpLinksUpdater.slStep fid) acc).1.strat = acc.1.strat) ∧
      ((kvs.foldl (RhpLinksUpdater.slStep fid) acc).1.events = acc.1.events) ∧
      ((kvs.foldl (RhpLinksUpdater.slStep fid) acc).1.heap.length =
        acc.1.heap.length) := by
  intro kvs
  induction kvs with
  | nil => intro acc; exact ⟨rfl, rfl, rfl, rfl, rfl⟩
  | cons kv tl ih =>
    intro acc
    rw [List.foldl_cons]
    obtain ⟨i1, i2, i3, i4, i5⟩ := ih (RhpLinksUpdater.slStep fid acc kv)
    obtain ⟨s1, s2, s3, s4, s5⟩ := slStep_frame fid acc kv
    exact ⟨i1.trans s1, i2.trans s2, i3.trans s3, i4.trans s4, i5.trans s5⟩

theorem slFold_fields (fid : Nat) :
    ∀ (kvs : List (List Char × Nat)) (acc : UpdState × List Nat) (j : Nat),
      ((getF (kvs.foldl (RhpLinksUpdater.slStep fid) acc).1.heap j).absPath =
        (getF acc.1.heap j).absPath) ∧
      ((getF (kvs.foldl (RhpLinksUpdater.slStep fid) acc).1.heap j).fileExists =
        (getF acc.1.heap j).fileExists) ∧
      ((getF (kvs.foldl (RhpLinksUpdater.slStep fid) acc).1.heap j).wasRead =
        (getF acc.1.heap j).wasRead) := by
  intro kvs
  induction kvs with
  | nil => intro acc j; exact ⟨rfl, rfl, rfl⟩
  | cons kv tl ih =>
    intro acc j
    rw [List.foldl_cons]
    obtain ⟨i1, i2, i3⟩ := ih (RhpLinksUpdater.slStep fid acc kv) j
    obtain ⟨s1, s2, s3⟩ := slStep_fields fid acc kv j
    exact ⟨i1.trans s1, i2.trans s2, i3.trans s3⟩

theorem slStep_output (fid : Nat) (acc : UpdState × List Nat)
    (kv : List Char × Nat) :
    ∀ cid ∈ (RhpLinksUpdater.slStep fid acc kv).2,
      cid ∈ acc.2 ∨
      ((getF (RhpLinksUpdater.slStep fid acc kv).1.heap cid).fileExists = true ∧
        cid = kv.2) := by
  intro cid hc
  revert hc
  simp only [RhpLinksUpdater.slStep]
  cases h : RhpIndex.getIndexedRhpyx acc.1 (getF acc.1.heap kv.2).absPath with
  | some iid =>
    intro hc
    exact Or.inl hc
  | none =>
    simp only
    split
    · next hex =>
      intro hc
      rcases List.mem_append.mp hc with hm | hm
      · exact Or.inl hm
      · rcases List.mem_singleton.mp hm with rfl
        exact Or.inr ⟨hex, rfl⟩
    · intro hc
      exact Or.inl hc

theorem slFold_output (fid : Nat) :
    ∀ (kvs : List (List Char × Nat)) (acc : UpdState × List Nat),
      ∀ cid ∈ (kvs.foldl (RhpLinksUpdater.slStep fid) acc).2,
        cid ∈ acc.2 ∨
        ((getF (kvs.foldl (RhpLinksUpdater.slStep fid) acc).1.heap cid).fileExists = true ∧
          ∃ kv ∈ kvs, cid = kv.2) := by
  intro kvs
  induction kvs with
  | nil => intro acc cid hc; exact Or.inl hc
  | cons kv tl ih =>
    intro acc cid hc
    rw [List.foldl_cons] at hc
    rcases ih (RhpLinksUpdater.slStep fid acc kv) cid hc with hm | hm
    · rcases slStep_output fid acc kv cid hm with hm' | ⟨hex, rfl⟩
      · exact Or.inl hm'
      · right
        refine ⟨?_, kv, List.mem_cons_self _ _, rfl⟩
        rw [List.foldl_cons]
        exact ((slFold_fields fid tl (RhpLinksUpdater.slStep fid acc kv) kv.2).2.1).trans hex
    · obtain ⟨hex, kv', hkv', rfl⟩ := hm
      right
      refine ⟨?_, kv', List.mem_cons_of_mem _ hkv', rfl⟩
      rw [List.foldl_cons]
      exact hex

theorem gl_frame (st : UpdState) (fid : Nat) :
    ((RhpRpyx.getLinkedRpyx st fid).1.cwd = st.cwd) ∧
    ((RhpRpyx.getLinkedRpyx st fid).1.fs = st.fs) ∧
    ((RhpRpyx.getLinkedRpyx st fid).1.indexByAbsPath = st.indexByAbsPath) ∧
    ((RhpRpyx.getLinkedRpyx st fid).1.strat = st.strat) ∧
    ((RhpRpyx.getLinkedRpyx st fid).1.events =
      st.events ++ [Ev.read (getF st.heap fid).absPath]) := by
  simp only [RhpRpyx.getLinkedRpyx]
  obtain ⟨h1, h2, h3, h4, h5⟩ := glFold_frame (getF st.heap fid).absPath
    (dedupKeepFirst (List.map RhpRpyx.matchToRpyx
      (pyFindAll ((alookup (getF st.heap fid).absPath st.fs).getD []))))
    ({ st with
        heap := setF st.heap fid
          { getF st.heap fid with
            fileContent := (alookup (getF st.heap fid).absPath st.fs).getD [],
            wasRead := true },
        events := st.events ++ [Ev.read (getF st.heap fid).absPath] }, [])
  exact ⟨h1, h2, h3, h4, h5⟩

theorem gl_heap (st : UpdState) (fid : Nat) :
    ∃ cands : List RhpRpyx,
      (RhpRpyx.getLinkedRpyx st fid).1.heap =
        setF st.heap fid
          { getF st.heap fid with
            fileContent := (alookup (getF st.heap fid).absPath st.fs).getD [],
            wasRead := true } ++ cands ∧
      ∀ g ∈ cands, g.wasRead = false ∧ g.linksDico = [] ∧
        g.fileExists = (alookup g.absPath st.fs).isSome := by
  simp only [RhpRpyx.getLinkedRpyx]
  obtain ⟨cands, hh, hp⟩ := glFold_heap (getF st.heap fid).absPath
    (dedupKeepFirst (List.map RhpRpyx.matchToRpyx
      (pyFindAll ((alookup (getF st.heap fid).absPath st.fs).getD []))))
    ({ st with
        heap := setF st.heap fid
          { getF st.heap fid with
            fileContent := (alookup (getF st.heap fid).absPath st.fs).getD [],
            wasRead := true },
        events := st.events ++ [Ev.read (getF st.heap fid).absPath] }, [])
  exact ⟨cands, hh, hp⟩

theorem gl_fields (st : UpdState) (fid : Nat) (j : Nat)
    (hj : j < st.heap.length) :
    ((getF (RhpRpyx.getLinkedRpyx st fid).1.heap j).absPath =
      (getF st.heap j).absPath) ∧
    ((getF (RhpRpyx.getLinkedRpyx st fid).1.heap j).fileExists =
      (getF st.heap j).fileExists) ∧
    ((getF (RhpRpyx.getLinkedRpyx st fid).1.heap j).linksDico =
      (getF st.heap j).linksDico) := by
  obtain ⟨cands, hh, _⟩ := gl_heap st fid
  rw [hh, getF_append_lt _ _ _ (by rw [setF_length]; exact hj)]
  by_cases he : j = fid
  · subst he
    rw [getF_set_self _ _ _ hj]
    exact ⟨rfl, rfl, rfl⟩
  · rw [getF_set_ne _ _ _ _ he]
    exact ⟨rfl, rfl, rfl⟩

theorem gl_heapLen (st : UpdState) (fid : Nat) :
    st.heap.length ≤ (RhpRpyx.getLinkedRpyx st fid).1.heap.length := by
  obtain ⟨cands, hh, _⟩ := gl_heap st fid
  rw [hh, List.length_append, setF_length]
  exact Nat.le_add_right _ _

/-- The state reached by the body of `searchLinks` before the recursive
    calls: links discovered, registered, prepared and counted. -/
def slBody (st : UpdState) (fid : Nat) : UpdState :=
  RelativePathReplacementStrategy.prepareAndCountReplacements
    (((RhpRpyx.getLinkedRpyx st fid).2.foldl (RhpLinksUpdater.slStep fid)
      ((RhpRpyx.getLinkedRpyx st fid).1, [])).1) fid

/-- The list of freshly registered existing files the body queues. -/
def slQueue (st : UpdState) (fid : Nat) : List Nat :=
  ((RhpRpyx.getLinkedRpyx st fid).2.foldl (RhpLinksUpdater.slStep fid)
    ((RhpRpyx.getLinkedRpyx st fid).1, [])).2

theorem searchLinks_succ_eq (fuel : Nat) (st : UpdState) (fid : Nat) (d : Int) :
    RhpLinksUpdater.searchLinks (fuel + 1) st fid d =
      (if d ≠ 0 then
        (slQueue st fid).foldlM (fun s cid =>
          RhpLinksUpdater.searchLinks fuel s cid (d - 1)) (slBody st fid)
      else some (slBody st fid)) := by
  simp only [RhpLinksUpdater.searchLinks, slBody, slQueue]

theorem slBody_events (st : UpdState) (fid : Nat) (hfid : fid < st.heap.length) :
    (slBody st fid).events =
      st.events ++ [Ev.read (getF st.heap fid).absPath,
        Ev.prep (getF st.heap fid).absPath] := by
  unfold slBody
  set r := RhpRpyx.getLinkedRpyx st fid with hr
  set l1 := (r.2.foldl (RhpLinksUpdater.slStep fid) (r.1, [])).1 with hl1
  have hev : l1.events = st.events ++ [Ev.read (getF st.heap fid).absPath] := by
    rw [hl1]
    have := (slFold_frame fid r.2 (r.1, [])).2.2.2.1
    rw [this]
    exact (gl_frame st fid).2.2.2.2
  have hpath : (getF l1.heap fid).absPath = (getF st.heap fid).absPath := by
    rw [hl1]
    have := (slFold_fields fid r.2 (r.1, []) fid).1
    rw [this]
    exact (gl_fields st fid fid hfid).1
  rw [(prepare_frame l1 fid).2.2.2.1, hpath, hev, List.append_assoc]
  rfl

theorem slBody_strat (st : UpdState) (fid : Nat) :
    (slBody st fid).strat.updatedFileCount = st.strat.updatedFileCount ∧
    (slBody st fid).strat.maxFileToUpdate = st.strat.maxFileToUpdate := by
  have h1 : StepRel st (slBody st fid) :=
    stepRel_trans (stepRel_getLinkedRpyx st fid)
      (stepRel_trans (stepRel_slFold fid _ _ _) (stepRel_prepare _ fid))
  exact ⟨h1.upd_eq, h1.cap_eq⟩

theorem stepRel_slBody (st : UpdState) (fid : Nat) : StepRel st (slBody st fid) :=
  stepRel_trans (stepRel_getLinkedRpyx st fid)
    (stepRel_trans (stepRel_slFold fid _ _ _) (stepRel_prepare _ fid))

/-- C6 helper: within one `searchLinks` invocation the file is read and
    its replacements are prepared and counted before any event of the
    recursive traversals of its newly discovered targets. -/
theorem searchLinks_events_shape (fuel : Nat) (st : UpdState) (fid : Nat)
    (d : Int) (st' : UpdState) (hfid : fid < st.heap.length)
    (h : RhpLinksUpdater.searchLinks fuel st fid d = some st') :
    ∃ rest, st'.events = st.events ++ Ev.read ((getF st.heap fid).absPath) ::
      Ev.prep ((getF st.heap fid).absPath) :: rest := by
  cases fuel with
  | zero => cases h
  | succ fuel =>
    rw [searchLinks_succ_eq] at h
    by_cases hd : d ≠ 0
    · rw [if_pos hd] at h
      have hrel : StepRel (slBody st fid) st' :=
        stepRel_foldlM _ (fun s x s' hx => stepRel_searchLinks fuel s x (d - 1) s' hx) _ _ _ h
      obtain ⟨t, ht, _⟩ := hrel.events_ext
      refine ⟨t, ?_⟩
      rw [ht, slBody_events st fid hfid]
      simp
    · rw [if_neg hd] at h
      cases h
      exact ⟨[], slBody_events st fid hfid⟩

theorem stepRel_seedStep (fuel : Nat) (st : UpdState) (p : List Char)
    (st' : UpdState) (h : RhpLinksUpdater.seedStep fuel st p = some st') :
    StepRel st st' := by
  simp only [RhpLinksUpdater.seedStep] at h
  have halloc : StepRel st
      { st with heap := st.heap ++ [RhpRpyx.construct st.cwd st.fs p] } := by
    refine ⟨rfl, rfl, rfl, rfl, ⟨[], by simp, by simp⟩, by simp, ?_,
      fun _ _ hx => hx⟩
    intro i hi
    rw [getF_append_lt _ _ _ hi]
    exact ⟨rfl, rfl⟩
  by_cases hex : (RhpRpyx.construct st.cwd st.fs p).fileExists = false
  · rw [if_pos hex] at h
    cases h
    exact halloc
  · rw [if_neg hex] at h
    exact stepRel_trans halloc (stepRel_searchLinks fuel _ _ _ _ h)

theorem stepRel_discoverPhase (fuel : Nat) (st : UpdState)
    (seeds : List (List Char)) (st' : UpdState)
    (h : RhpLinksUpdater.discoverPhase fuel st seeds = some st') :
    StepRel st st' :=
  stepRel_foldlM _ (fun s x s' hx => stepRel_seedStep fuel s x s' hx) seeds st st' h

/-! ## Event-count helpers -/

theorem countWrites_append (a b : List Ev) :
    countWrites (a ++ b) = countWrites a + countWrites b :=
  List.countP_append _ _ _

theorem countReads_append (p : List Char) (a b : List Ev) :
    countReads p (a ++ b) = countReads p a + countReads p b :=
  List.countP_append _ _ _

theorem countPreps_append (p : List Char) (a b : List Ev) :
    countPreps p (a ++ b) = countPreps p a + countPreps p b :=
  List.countP_append _ _ _

theorem countWrites_zero_of_no_write (t : List Ev)
    (h : ∀ e ∈ t, e.isWrite = false) : countWrites t = 0 := by
  refine List.countP_eq_zero.mpr ?_
  intro e he
  rw [h e he]
  exact Bool.false_ne_true

theorem countReads_zero_of_writes (p : List Char) (t : List Ev)
    (h : ∀ e ∈ t, e.isWrite = true) : countReads p t = 0 := by
  refine List.countP_eq_zero.mpr ?_
  intro e he
  cases e with
  | read q => exact absurd (h _ he) (by simp [Ev.isWrite])
  | prep q => exact absurd (h _ he) (by simp [Ev.isWrite])
  | write q => simp

theorem countPreps_zero_of_writes (p : List Char) (t : List Ev)
    (h : ∀ e ∈ t, e.isWrite = true) : countPreps p t = 0 := by
  refine List.countP_eq_zero.mpr ?_
  intro e he
  cases e with
  | read q => exact absurd (h _ he) (by simp [Ev.isWrite])
  | prep q => exact absurd (h _ he) (by simp [Ev.isWrite])
  | write q => simp

/-! ## The apply phase -/

/-- The write-budget potential: writes already performed plus the budget
    the cap still allows.  Each apply step can only keep it or lower it. -/
def wpot (st : UpdState) : Nat :=
  countWrites st.events + (st.strat.maxFileToUpdate - st.strat.updatedFileCount)

theorem applyStep_frame (st : UpdState) (fid : Nat) :
    ((RelativePathReplacementStrategy.doReplacements st fid).cwd = st.cwd) ∧
    ((RelativePathReplacementStrategy.doReplacements st fid).heap = st.heap) ∧
    ((RelativePathReplacementStrategy.doReplacements st fid).indexByAbsPath =
      st.indexByAbsPath) ∧
    ((RelativePathReplacementStrategy.doReplacements st fid).strat.linkCount =
      st.strat.linkCount) ∧
    ((RelativePathReplacementStrategy.doReplacements st fid).strat.replacementCount =
      st.strat.replacementCount) ∧
    ((RelativePathReplacementStrategy.doReplacements st fid).strat.fileUpdatedCount =
      st.strat.fileUpdatedCount) ∧
    ((RelativePathReplacementStrategy.doReplacements st fid).strat.maxFileToUpdate =
      st.strat.maxFileToUpdate) := by
  simp only [RelativePathReplacementStrategy.doReplacements]
  split
  · exact ⟨rfl, rfl, rfl, rfl, rfl, rfl, rfl⟩
  · split
    · exact ⟨rfl, rfl, rfl, rfl, rfl, rfl, rfl⟩
    · split
      · exact ⟨rfl, rfl, rfl, rfl, rfl, rfl, rfl⟩
      · exact ⟨rfl, rfl, rfl, rfl, rfl, rfl, rfl⟩

theorem applyStep_events (st : UpdState) (fid : Nat) :
    (RelativePathReplacementStrategy.doReplacements st fid).events = st.events ∨
    ((RelativePathReplacementStrategy.doReplacements st fid).events =
        st.events ++ [Ev.write (getF st.heap fid).absPath] ∧
      (getF st.heap fid).fileExists = true) := by
  simp only [RelativePathReplacementStrategy.doReplacements]
  split
  · exact Or.inl rfl
  · next hex =>
    have hex' : (getF st.heap fid).fileExists = true := by
      revert hex
      cases (getF st.heap fid).fileExists <;> simp
    split
    · exact Or.inl rfl
    · split
      · exact Or.inr ⟨rfl, hex'⟩
      · exact Or.inl rfl

theorem applyStep_wpot (st : UpdState) (fid : Nat) :
    wpot (RelativePathReplacementStrategy.doReplacements st fid) ≤ wpot st := by
  unfold wpot
  simp only [RelativePathReplacementStrategy.doReplacements]
  split
  · exact Nat.le_refl _
  · split
    · exact Nat.le_refl _
    · split
      · next hlt =>
        have h1 : countWrites (st.events ++ [Ev.write (getF st.heap fid).absPath]) =
            countWrites st.events + 1 := by
          rw [countWrites_append]
          rfl
        simp only [h1]
        omega
      · next hge =>
        simp only
        omega

theorem applyStep_upd_mono (st : UpdState) (fid : Nat) :
    st.strat.updatedFileCount ≤
      (RelativePathReplacementStrategy.doReplacements st fid).strat.updatedFileCount := by
  simp only [RelativePathReplacementStrategy.doReplacements]
  split
  · exact Nat.le_refl _
  · split
    · exact Nat.le_refl _
    · split
      · exact Nat.le_succ _
      · exact Nat.le_succ _

theorem applyFold_frame :
    ∀ (l : List (List Char × Nat)) (st : UpdState),
      ((l.foldl (fun s kv => RelativePathReplacementStrategy.doReplacements s kv.2) st).cwd = st.cwd) ∧
      ((l.foldl (fun s kv => RelativePathReplacementStrategy.doReplacements s kv.2) st).heap = st.heap) ∧
      ((l.foldl (fun s kv => RelativePathReplacementStrategy.doReplacements s kv.2) st).indexByAbsPath = st.indexByAbsPath) ∧
      ((l.foldl (fun s kv => RelativePathReplacementStrategy.doReplacements s kv.2) st).strat.linkCount = st.strat.linkCount) ∧
      ((l.foldl (fun s kv => RelativePathReplacementStrategy.doReplacements s kv.2) st).strat.replacementCount = st.strat.replacementCount) := by
  intro l
  induction l with
  | nil => intro st; exact ⟨rfl, rfl, rfl, rfl, rfl⟩
  | cons kv tl ih =>
    intro st
    rw [List.foldl_cons]
    obtain ⟨i1, i2, i3, i4, i5⟩ := ih (RelativePathReplacementStrategy.doReplacements st kv.2)
    obtain ⟨s1, s2, s3, s4, s5, s6, s7⟩ := applyStep_frame st kv.2
    exact ⟨i1.trans s1, i2.trans s2, i3.trans s3, i4.trans s4, i5.trans s5⟩

theorem applyFold_wpot :
    ∀ (l : List (List Char × Nat)) (st : UpdState),
      wpot (l.foldl (fun s kv => RelativePathReplacementStrategy.doReplacements s kv.2) st) ≤ wpot st := by
  intro l
  induction l with
  | nil => intro st; exact Nat.le_refl _
  | cons kv tl ih =>
    intro st
    rw [List.foldl_cons]
    exact Nat.le_trans (ih _) (applyStep_wpot st kv.2)

theorem applyFold_events :
    ∀ (l : List (List Char × Nat)) (st : UpdState),
      ∃ t, (l.foldl (fun s kv => RelativePathReplacementStrategy.doReplacements s kv.2) st).events = st.events ++ t ∧
        ∀ e ∈ t, e.isWrite = true ∧
          ∃ i, e = Ev.write (getF st.heap i).absPath ∧
            (getF st.heap i).fileExists = true := by
  intro l
  induction l with
  | nil => intro st; exact ⟨[], by simp, by simp⟩
  | cons kv tl ih =>
    intro st
    rw [List.foldl_cons]
    obtain ⟨t, ht, hp⟩ := ih (RelativePathReplacementStrategy.doReplacements st kv.2)
    have hheap := (applyStep_frame st kv.2).2.1
    rcases applyStep_events st kv.2 with he | ⟨he, hex⟩
    · refine ⟨t, ?_, ?_⟩
      · rw [ht, he]
      · intro e het
        obtain ⟨hw, i, hei, hexi⟩ := hp e het
        rw [hheap] at hei hexi
        exact ⟨hw, i, hei, hexi⟩
    · refine ⟨Ev.write (getF st.heap kv.2).absPath :: t, ?_, ?_⟩
      · rw [ht, he]
        simp
      · intro e het
        rcases List.mem_cons.mp het with rfl | het'
        · exact ⟨rfl, kv.2, rfl, hex⟩
        · obtain ⟨hw, i, hei, hexi⟩ := hp e het'
          rw [hheap] at hei hexi
          exact ⟨hw, i, hei, hexi⟩

theorem applyPhase_events (st : UpdState) :
    ∃ t, (RhpLinksUpdater.applyPhase st).events = st.events ++ t ∧
      ∀ e ∈ t, e.isWrite = true ∧
        ∃ i, e = Ev.write (getF st.heap i).absPath ∧
          (getF st.heap i).fileExists = true :=
  applyFold_events st.indexByAbsPath st

theorem applyPhase_frame (st : UpdState) :
    ((RhpLinksUpdater.applyPhase st).heap = st.heap) ∧
    ((RhpLinksUpdater.applyPhase st).indexByAbsPath = st.indexByAbsPath) ∧
    ((RhpLinksUpdater.applyPhase st).strat.linkCount = st.strat.linkCount) ∧
    ((RhpLinksUpdater.applyPhase st).strat.replacementCount = st.strat.replacementCount) := by
  obtain ⟨h1, h2, h3, h4, h5⟩ := applyFold_frame st.indexByAbsPath st
  exact ⟨h2, h3, h4, h5⟩

/-! ## Run-level helpers -/

theorem run_split (fuel : Nat) (cwd : List Char)
    (fs : List (List Char × List Char)) (seeds : List (List Char)) (cap : Nat)
    (st' : UpdState) (h : run fuel cwd fs seeds cap = some st') :
    ∃ stD, RhpLinksUpdater.discoverPhase fuel (initState cwd fs cap) seeds = some stD ∧
      st' = RhpLinksUpdater.applyPhase stD := by
  unfold run RhpLinksUpdater.update at h
  rcases Option.map_eq_some'.mp h with ⟨stD, hD, hA⟩
  exact ⟨stD, hD, hA.symm⟩

theorem discover_writes_zero (fuel : Nat) (cwd : List Char)
    (fs : List (List Char × List Char)) (seeds : List (List Char)) (cap : Nat)
    (stD : UpdState)
    (h : RhpLinksUpdater.discoverPhase fuel (initState cwd fs cap) seeds = some stD) :
    countWrites stD.events = 0 ∧ stD.strat.updatedFileCount = 0 ∧
    stD.strat.maxFileToUpdate = cap := by
  have hrel := stepRel_discoverPhase fuel _ seeds stD h
  obtain ⟨t, ht, hw⟩ := hrel.events_ext
  refine ⟨?_, hrel.upd_eq, hrel.cap_eq⟩
  rw [ht]
  show countWrites (([] : List Ev) ++ t) = 0
  rw [countWrites_append, countWrites_zero_of_no_write t hw]
  rfl

theorem run_writes_le (fuel : Nat) (cwd : List Char)
    (fs : List (List Char × List Char)) (seeds : List (List Char)) (cap : Nat)
    (st' : UpdState) (h : run fuel cwd fs seeds cap = some st') :
    countWrites st'.events ≤ cap := by
  obtain ⟨stD, hD, rfl⟩ := run_split fuel cwd fs seeds cap st' h
  obtain ⟨hw0, hu0, hcap⟩ := discover_writes_zero fuel cwd fs seeds cap stD hD
  have h1 : countWrites (RhpLinksUpdater.applyPhase stD).events ≤
      wpot (RhpLinksUpdater.applyPhase stD) := Nat.le_add_right _ _
  have h2 : wpot (RhpLinksUpdater.applyPhase stD) ≤ wpot stD :=
    applyFold_wpot stD.indexByAbsPath stD
  have h3 : wpot stD = cap := by
    unfold wpot
    rw [hw0, hu0, hcap]
    omega
  omega

/-- C6: within one `searchLinks` call the file's links are discovered and
    its counts tallied (one read then one prepare-and-count event) before
    any event of the recursive traversals of its newly discovered
    targets, and in a whole run every discovery event precedes every
    write: the trace splits into a write-free discovery part followed by
    a read-free apply part. -/
theorem C6_depth_first_then_writes :
    (∀ (fuel : Nat) (st : UpdState) (fid : Nat) (d : Int) (st' : UpdState),
        fid < st.heap.length →
        RhpLinksUpdater.searchLinks fuel st fid d = some st' →
        ∃ rest, st'.events = st.events ++ Ev.read ((getF st.heap fid).absPath) ::
          Ev.prep ((getF st.heap fid).absPath) :: rest) ∧
    (∀ (fuel : Nat) (cwd : List Char) (fs : List (List Char × List Char))
        (seeds : List (List Char)) (cap : Nat) (st' : UpdState),
        run fuel cwd fs seeds cap = some st' →
        ∃ evD evA, st'.events = evD ++ evA ∧
          (∀ e ∈ evD, e.isWrite = false) ∧ (∀ e ∈ evA, e.isRead = false)) := by
  constructor
  · intro fuel st fid d st' hfid h
    exact searchLinks_events_shape fuel st fid d st' hfid h
  · intro fuel cwd fs seeds cap st' h
    obtain ⟨stD, hD, rfl⟩ := run_split fuel cwd fs seeds cap st' h
    have hrel := stepRel_discoverPhase fuel _ seeds stD hD
    obtain ⟨t, ht, hw⟩ := hrel.events_ext
    obtain ⟨t2, ht2, hw2⟩ := applyPhase_events stD
    refine ⟨stD.events, t2, ht2, ?_, ?_⟩
    · intro e he
      refine hw e ?_
      rw [ht] at he
      simpa [initState] using he
    · intro e he
      rcases hw2 e he with ⟨-, i, rfl, -⟩
      rfl

/-- Scenario for the C6 witness: one existing token-free seed file. -/
def fsC6 : List (List Char × List Char) := [(strL "/proj/A.rpyx", strL "x")]

/-- A state holding the C6 seed instance at heap id 0. -/
def stC6 : UpdState :=
  { initState (strL "/") fsC6 1 with
    heap := [RhpRpyx.construct (strL "/") fsC6 (strL "/proj/A.rpyx")] }

/-- C6 witness: both ordering guarantees at a concrete scenario. -/
theorem C6_depth_first_then_writes_witness :
    (0 < stC6.heap.length) ∧
    (RhpLinksUpdater.searchLinks 5 stC6 0 (-1) =
      some ((RhpLinksUpdater.searchLinks 5 stC6 0 (-1)).getD dummyUpdState)) ∧
    (run 5 (strL "/") fsC6 [strL "/proj/A.rpyx"] 1 =
      some ((run 5 (strL "/") fsC6 [strL "/proj/A.rpyx"] 1).getD dummyUpdState)) ∧
    (∃ rest, ((RhpLinksUpdater.searchLinks 5 stC6 0 (-1)).getD dummyUpdState).events =
      stC6.events ++ Ev.read ((getF stC6.heap 0).absPath) ::
        Ev.prep ((getF stC6.heap 0).absPath) :: rest) ∧
    (∃ evD evA,
      ((run 5 (strL "/") fsC6 [strL "/proj/A.rpyx"] 1).getD dummyUpdState).events =
        evD ++ evA ∧ (∀ e ∈ evD, e.isWrite = false) ∧ (∀ e ∈ evA, e.isRead = false)) :=
  ⟨by decide, by decide, by decide,
    C6_depth_first_then_writes.1 5 stC6 0 (-1) _ (by decide) (by decide),
    C6_depth_first_then_writes.2 5 (strL "/") fsC6 [strL "/proj/A.rpyx"] 1 _ (by decide)⟩

/-- C7 (amended): when `apply` meets an existing file with at least one
    computed replacement after the cap is reached, no write is performed
    and no error is raised, but the counter the cap is compared against
    (`updatedFileCount`) is still incremented; a cap of zero therefore
    performs no writes in a whole run and only counts and logs. -/
theorem C7_cap_skip_amended :
    (∀ (st : UpdState) (fid : Nat),
        (getF st.heap fid).fileExists = true →
        (getF st.heap fid).replacementsDico ≠ [] →
        st.strat.maxFileToUpdate ≤ st.strat.updatedFileCount →
        (RelativePathReplacementStrategy.doReplacements st fid).events = st.events ∧
        (RelativePathReplacementStrategy.doReplacements st fid).fs = st.fs ∧
        (RelativePathReplacementStrategy.doReplacements st fid).strat.updatedFileCount =
          st.strat.updatedFileCount + 1) ∧
    (∀ (fuel : Nat) (cwd : List Char) (fs : List (List Char × List Char))
        (seeds : List (List Char)) (st' : UpdState),
        run fuel cwd fs seeds 0 = some st' → countWrites st'.events = 0) := by
  constructor
  · intro st fid hex hne hcap
    simp only [RelativePathReplacementStrategy.doReplacements]
    have h1 : ¬((getF st.heap fid).fileExists = false) := by
      intro hc
      rw [hex] at hc
      exact Bool.noConfusion hc
    have h2 : ¬((getF st.heap fid).replacementsDico.length = 0) := by
      intro hc
      exact hne (List.eq_nil_of_length_eq_zero hc)
    have h3 : ¬(st.strat.updatedFileCount < st.strat.maxFileToUpdate) :=
      Nat.not_lt.mpr hcap
    rw [if_neg h1, if_neg h2, if_neg h3]
    exact ⟨rfl, rfl, rfl⟩
  · intro fuel cwd fs seeds st' h
    exact Nat.le_zero.mp (run_writes_le fuel cwd fs seeds 0 st' h)

/-- C7 witness: the amended cap-skip behaviour at the concrete capped
    state and at a concrete cap-zero run. -/
theorem C7_cap_skip_amended_witness :
    ((getF stC7.heap 0).fileExists = true) ∧
    ((getF stC7.heap 0).replacementsDico ≠ []) ∧
    (stC7.strat.maxFileToUpdate ≤ stC7.strat.updatedFileCount) ∧
    (run 5 (strL "/") [(strL "/proj/B.rpyx", strL "y")] [strL "/proj/B.rpyx"] 0 =
      some ((run 5 (strL "/") [(strL "/proj/B.rpyx", strL "y")]
        [strL "/proj/B.rpyx"] 0).getD dummyUpdState)) ∧
    ((RelativePathReplacementStrategy.doReplacements stC7 0).events = stC7.events ∧
      (RelativePathReplacementStrategy.doReplacements stC7 0).fs = stC7.fs ∧
      (RelativePathReplacementStrategy.doReplacements stC7 0).strat.updatedFileCount =
        stC7.strat.updatedFileCount + 1) ∧
    countWrites ((run 5 (strL "/") [(strL "/proj/B.rpyx", strL "y")]
      [strL "/proj/B.rpyx"] 0).getD dummyUpdState).events = 0 :=
  ⟨by decide, by decide, by decide, by decide,
    C7_cap_skip_amended.1 stC7 0 (by decide) (by decide) (by decide),
    C7_cap_skip_amended.2 5 (strL "/") [(strL "/proj/B.rpyx", strL "y")]
      [strL "/proj/B.rpyx"] _ (by decide)⟩

/-! ## Run invariants: tally balance, unread missing files, filesystem
    synchronisation and link registration -/

/-- Every discovery (read) has been tallied (prepare-and-count event). -/
def BalInv (st : UpdState) : Prop :=
  ∀ p, countReads p st.events = countPreps p st.events

/-- A file that does not exist on disk is never read. -/
def NoReadInv (st : UpdState) : Prop :=
  ∀ i, (getF st.heap i).fileExists = false → (getF st.heap i).wasRead = false

/-- The cached existence flag agrees with the filesystem. -/
def FsSyncInv (st : UpdState) : Prop :=
  ∀ i, i < st.heap.length →
    (getF st.heap i).fileExists = (alookup (getF st.heap i).absPath st.fs).isSome

/-- Every link-map target is a valid heap id whose normalized identity is
    registered in the index, and every index entry is keyed by its
    instance's normalized identity. -/
def LinkRegInv (st : UpdState) : Prop :=
  (∀ i, ∀ kv ∈ (getF st.heap i).linksDico,
    kv.2 < st.heap.length ∧
    (alookup (lowerStr (getF st.heap kv.2).absPath) st.indexByAbsPath).isSome = true) ∧
  (∀ kv ∈ st.indexByAbsPath, kv.2 < st.heap.length ∧
    kv.1 = lowerStr (getF st.heap kv.2).absPath)

/-- The conjunction of all run invariants. -/
def RunInv (st : UpdState) : Prop :=
  BalInv st ∧ NoReadInv st ∧ FsSyncInv st ∧ LinkRegInv st

theorem getF_mem (e : List RhpRpyx) (m : Nat) (hm : m < e.length) :
    getF e m ∈ e := by
  unfold getF
  rw [List.getD_eq_getElem _ _ hm]
  exact List.getElem_mem hm

theorem getF_nil (i : Nat) : getF [] i = dummyRpyx := List.getD_nil

theorem inv_initState (cwd : List Char) (fs : List (List Char × List Char))
    (cap : Nat) : RunInv (initState cwd fs cap) := by
  refine ⟨fun p => rfl, ?_, ?_, ⟨?_, ?_⟩⟩
  · intro i _
    show (getF [] i).wasRead = false
    rw [getF_nil]
    rfl
  · intro i hi
    exact absurd hi (by simp [initState])
  · intro i kv hkv
    rw [show (getF (initState cwd fs cap).heap i) = dummyRpyx from getF_nil i] at hkv
    cases hkv
  · intro kv hkv
    cases hkv

/-- `getLinkedRpyx` preserves the heap invariants when invoked on a valid
    existing instance: the read flag is only set on an existing file, and
    candidates are appended fresh and filesystem-synchronised. -/
theorem inv3_gl (st : UpdState) (fid : Nat)
    (hex : (getF st.heap fid).fileExists = true)
    (hnr : NoReadInv st) (hfs : FsSyncInv st) (hlr : LinkRegInv st) :
    NoReadInv (RhpRpyx.getLinkedRpyx st fid).1 ∧
    FsSyncInv (RhpRpyx.getLinkedRpyx st fid).1 ∧
    LinkRegInv (RhpRpyx.getLinkedRpyx st fid).1 := by
  obtain ⟨cands, hh, hp⟩ := gl_heap st fid
  have hfs' : (RhpRpyx.getLinkedRpyx st fid).1.fs = st.fs := (gl_frame st fid).2.1
  have hix : (RhpRpyx.getLinkedRpyx st fid).1.indexByAbsPath = st.indexByAbsPath :=
    (gl_frame st fid).2.2.1
  have hlen : (RhpRpyx.getLinkedRpyx st fid).1.heap.length =
      st.heap.length + cands.length := by
    rw [hh, List.length_append, setF_length]
  have habs : ∀ j, j < st.heap.length →
      (getF (RhpRpyx.getLinkedRpyx st fid).1.heap j).absPath =
        (getF st.heap j).absPath :=
    fun j hj => (gl_fields st fid j hj).1
  have hcases : ∀ j, (j < st.heap.length ∧
      ((j = fid ∧ getF (RhpRpyx.getLinkedRpyx st fid).1.heap j =
        { getF st.heap fid with
          fileContent := (alookup (getF st.heap fid).absPath st.fs).getD [],
          wasRead := true }) ∨
       (j ≠ fid ∧ getF (RhpRpyx.getLinkedRpyx st fid).1.heap j = getF st.heap j))) ∨
      (st.heap.length ≤ j ∧
        getF (RhpRpyx.getLinkedRpyx st fid).1.heap j =
          getF cands (j - st.heap.length)) := by
    intro j
    by_cases hj : j < st.heap.length
    · left
      refine ⟨hj, ?_⟩
      by_cases he : j = fid
      · subst he
        left
        refine ⟨rfl, ?_⟩
        rw [hh, getF_append_lt _ _ _ (by rw [setF_length]; exact hj),
          getF_set_self _ _ _ hj]
      · right
        refine ⟨he, ?_⟩
        rw [hh, getF_append_lt _ _ _ (by rw [setF_length]; exact hj),
          getF_set_ne _ _ _ _ he]
    · right
      refine ⟨Nat.le_of_not_lt hj, ?_⟩
      rw [hh, getF_append_right _ _ _ (by rw [setF_length]; exact Nat.le_of_not_lt hj),
        setF_length]
  have hcand : ∀ j, st.heap.length ≤ j → j < st.heap.length + cands.length →
      getF cands (j - st.heap.length) ∈ cands := by
    intro j h1 h2
    exact getF_mem cands _ (by omega)
  refine ⟨?_, ?_, ⟨?_, ?_⟩⟩
  · -- NoReadInv
    intro j hj
    rcases hcases j with ⟨hlt, ⟨heq, hrec⟩ | ⟨hne, hrec⟩⟩ | ⟨hge, hrec⟩
    · subst heq
      rw [hrec] at hj
      have : (getF st.heap j).fileExists = false := hj
      rw [hex] at this
      exact Bool.noConfusion this
    · rw [hrec] at hj ⊢
      exact hnr j hj
    · rw [hrec] at hj ⊢
      by_cases hb : j < st.heap.length + cands.length
      · exact (hp _ (hcand j hge hb)).1
      · have hdum : getF cands (j - st.heap.length) = dummyRpyx :=
          List.getD_eq_default _ _ (by omega)
        rw [hdum] at hj ⊢
        rfl
  · -- FsSyncInv
    intro j hj
    rw [hlen] at hj
    rw [hfs']
    rcases hcases j with ⟨hlt, ⟨heq, hrec⟩ | ⟨hne, hrec⟩⟩ | ⟨hge, hrec⟩
    · subst heq
      rw [hrec]
      exact hfs j hlt
    · rw [hrec]
      exact hfs j hlt
    · rw [hrec]
      exact (hp _ (hcand j hge hj)).2.2
  · -- LinkRegInv, link entries
    intro j kv hkv
    rw [hix]
    rcases hcases j with ⟨hlt, ⟨heq, hrec⟩ | ⟨hne, hrec⟩⟩ | ⟨hge, hrec⟩
    · subst heq
      rw [hrec] at hkv
      obtain ⟨hb, hreg⟩ := hlr.1 j kv hkv
      refine ⟨by rw [hlen]; omega, ?_⟩
      rw [habs kv.2 hb]
      exact hreg
    · rw [hrec] at hkv
      obtain ⟨hb, hreg⟩ := hlr.1 j kv hkv
      refine ⟨by rw [hlen]; omega, ?_⟩
      rw [habs kv.2 hb]
      exact hreg
    · rw [hrec] at hkv
      by_cases hb : j < st.heap.length + cands.length
      · rw [(hp _ (hcand j hge hb)).2.1] at hkv
        cases hkv
      · have hdum : getF cands (j - st.heap.length) = dummyRpyx :=
          List.getD_eq_default _ _ (by omega)
        rw [hdum] at hkv
        cases hkv
  · -- LinkRegInv, index entries
    intro kv hkv
    rw [hix] at hkv
    obtain ⟨hb, hkey⟩ := hlr.2 kv hkv
    refine ⟨by rw [hlen]; omega, ?_⟩
    rw [habs kv.2 hb]
    exact hkey

theorem alookup_singleton_self {β : Type} (k : List Char) (v : β) :
    alookup k [(k, v)] = some v := by
  simp [alookup]

theorem isSome_of_eq_some {β : Type} {a : Option β} {v : β} (h : a = some v) :
    a.isSome = true := by
  rw [h]
  rfl

theorem linkRpyx_links (st : UpdState) (fid : Nat) (k : List Char) (t : Nat)
    (j : Nat) :
    (getF (RhpRpyx.linkRpyx st fid k t).heap j).linksDico =
      if j = fid ∧ j < st.heap.length then
        dicoSet (getF st.heap j).linksDico k t
      else (getF st.heap j).linksDico := by
  simp only [RhpRpyx.linkRpyx]
  by_cases he : j = fid
  · subst he
    by_cases hj : j < st.heap.length
    · rw [getF_set_self _ _ _ hj, if_pos ⟨rfl, hj⟩]
    · rw [setF_of_ge _ _ _ (Nat.le_of_not_lt hj), if_neg (fun hc => hj hc.2)]
  · rw [getF_set_ne _ _ _ _ he, if_neg (fun hc => he hc.1)]

theorem inv3_slStep (fid : Nat) (acc : UpdState × List Nat)
    (kv : List Char × Nat) (hkv : kv.2 < acc.1.heap.length)
    (hnr : NoReadInv acc.1) (hfs : FsSyncInv acc.1) (hlr : LinkRegInv acc.1) :
    NoReadInv (RhpLinksUpdater.slStep fid acc kv).1 ∧
    FsSyncInv (RhpLinksUpdater.slStep fid acc kv).1 ∧
    LinkRegInv (RhpLinksUpdater.slStep fid acc kv).1 := by
  obtain ⟨f1, f2, f3, f4, f5⟩ := slStep_frame fid acc kv
  refine ⟨?_, ?_, ?_⟩
  · intro j hj
    have hf := slStep_fields fid acc kv j
    rw [hf.2.1] at hj
    rw [hf.2.2]
    exact hnr j hj
  · intro j hj
    rw [f5] at hj
    have hf := slStep_fields fid acc kv j
    rw [hf.2.1, hf.1, f2]
    exact hfs j hj
  · -- LinkRegInv through one registration step
    revert f1 f2 f3 f4 f5
    simp only [RhpLinksUpdater.slStep]
    cases hidx : RhpIndex.getIndexedRhpyx acc.1 (getF acc.1.heap kv.2).absPath with
    | some iid =>
      intro f1 f2 f3 f4 f5
      simp only at f1 f2 f3 f4 f5 ⊢
      -- the canonical target iid is already indexed
      have hmem := alookup_mem _ _ _ hidx
      obtain ⟨hiidlt, hiidkey⟩ := hlr.2 _ hmem
      have hreg : (alookup (lowerStr (getF acc.1.heap iid).absPath)
          acc.1.indexByAbsPath).isSome = true := by
        rw [← hiidkey]
        exact isSome_of_eq_some hidx
      obtain ⟨lf1, lf2, lf3, lf4, lf5, lf6⟩ := linkRpyx_frame acc.1 fid kv.1 iid
      constructor
      · intro j kv' hkv'
        rw [linkRpyx_links acc.1 fid kv.1 iid j] at hkv'
        rw [lf3, lf6, (linkRpyx_fields acc.1 fid kv.1 iid kv'.2).1]
        by_cases hc : j = fid ∧ j < acc.1.heap.length
        · rw [if_pos hc] at hkv'
          rcases dicoSet_mem _ _ _ _ hkv' with hold | hnew
          · exact hlr.1 j kv' hold
          · rw [hnew]
            exact ⟨hiidlt, hreg⟩
        · rw [if_neg hc] at hkv'
          exact hlr.1 j kv' hkv'
      · intro kv' hkv'
        rw [lf3] at hkv'
        obtain ⟨hb, hkey⟩ := hlr.2 kv' hkv'
        rw [lf6, (linkRpyx_fields acc.1 fid kv.1 iid kv'.2).1]
        exact ⟨hb, hkey⟩
    | none =>
      intro f1 f2 f3 f4 f5
      simp only at f1 f2 f3 f4 f5 ⊢
      -- fresh registration: link to the candidate, then index it
      set st1 := RhpRpyx.linkRpyx acc.1 fid kv.1 kv.2 with hst1
      have habs1 : ∀ j, (getF st1.heap j).absPath = (getF acc.1.heap j).absPath :=
        fun j => (linkRpyx_fields acc.1 fid kv.1 kv.2 j).1
      have hlen1 : st1.heap.length = acc.1.heap.length :=
        (linkRpyx_frame acc.1 fid kv.1 kv.2).2.2.2.2.2
      have hix1 : st1.indexByAbsPath = acc.1.indexByAbsPath :=
        (linkRpyx_frame acc.1 fid kv.1 kv.2).2.2.1
      have hkeynone : alookup (lowerStr (getF st1.heap kv.2).absPath)
          st1.indexByAbsPath = none := by
        rw [habs1, hix1]
        exact hidx
      have hst2 : RhpIndex.addIndexedRhpyx st1 kv.2 =
          { st1 with indexByAbsPath := st1.indexByAbsPath ++
              [(lowerStr (getF st1.heap kv.2).absPath, kv.2)] } := by
        simp only [RhpIndex.addIndexedRhpyx, hkeynone]
      have hgoal : LinkRegInv (RhpIndex.addIndexedRhpyx st1 kv.2) := by
        rw [hst2]
        constructor
        · intro j kv' hkv'
          have hkv'2 : kv' ∈ (getF st1.heap j).linksDico := hkv'
          rw [linkRpyx_links acc.1 fid kv.1 kv.2 j] at hkv'2
          have hlen2 : ({ st1 with indexByAbsPath := st1.indexByAbsPath ++
              [(lowerStr (getF st1.heap kv.2).absPath, kv.2)] } : UpdState).heap.length =
              acc.1.heap.length := hlen1
          by_cases hc : j = fid ∧ j < acc.1.heap.length
          · rw [if_pos hc] at hkv'2
            rcases dicoSet_mem _ _ _ _ hkv'2 with hold | hnew
            · obtain ⟨hb, hreg⟩ := hlr.1 j kv' hold
              refine ⟨by show kv'.2 < st1.heap.length; rw [hlen1]; exact hb, ?_⟩
              show (alookup (lowerStr (getF st1.heap kv'.2).absPath)
                (st1.indexByAbsPath ++ _)).isSome = true
              rw [habs1, hix1]
              obtain ⟨v, hv⟩ := Option.isSome_iff_exists.mp hreg
              exact isSome_of_eq_some (alookup_append_some _ _ _ _ hv)
            · rw [hnew]
              refine ⟨by show kv.2 < st1.heap.length; rw [hlen1]; exact hkv, ?_⟩
              show (alookup (lowerStr (getF st1.heap kv.2).absPath)
                (st1.indexByAbsPath ++
                  [(lowerStr (getF st1.heap kv.2).absPath, kv.2)])).isSome = true
              rw [alookup_append_none _ _ _ hkeynone]
              exact isSome_of_eq_some (alookup_singleton_self _ _)
          · rw [if_neg hc] at hkv'2
            obtain ⟨hb, hreg⟩ := hlr.1 j kv' hkv'2
            refine ⟨by show kv'.2 < st1.heap.length; rw [hlen1]; exact hb, ?_⟩
            show (alookup (lowerStr (getF st1.heap kv'.2).absPath)
              (st1.indexByAbsPath ++ _)).isSome = true
            rw [habs1, hix1]
            obtain ⟨v, hv⟩ := Option.isSome_iff_exists.mp hreg
            exact isSome_of_eq_some (alookup_append_some _ _ _ _ hv)
        · intro kv' hkv'
          rcases List.mem_append.mp hkv' with hold | hnew
          · rw [hix1] at hold
            obtain ⟨hb, hkey⟩ := hlr.2 kv' hold
            refine ⟨by show kv'.2 < st1.heap.length; rw [hlen1]; exact hb, ?_⟩
            rw [habs1]
            exact hkey
          · rcases List.mem_singleton.mp hnew with rfl
            exact ⟨by show kv.2 < st1.heap.length; rw [hlen1]; exact hkv, rfl⟩
      by_cases hq : (getF (RhpIndex.addIndexedRhpyx st1 kv.2).heap kv.2).fileExists = true
      · rw [if_pos hq]
        exact hgoal
      · rw [if_neg hq]
        exact hgoal

theorem inv3_slFold (fid : Nat) :
    ∀ (kvs : List (List Char × Nat)) (acc : UpdState × List Nat),
      (∀ kv ∈ kvs, kv.2 < acc.1.heap.length) →
      NoReadInv acc.1 → FsSyncInv acc.1 → LinkRegInv acc.1 →
      NoReadInv (kvs.foldl (RhpLinksUpdater.slStep fid) acc).1 ∧
      FsSyncInv (kvs.foldl (RhpLinksUpdater.slStep fid) acc).1 ∧
      LinkRegInv (kvs.foldl (RhpLinksUpdater.slStep fid) acc).1 := by
  intro kvs
  induction kvs with
  | nil => intro acc _ h1 h2 h3; exact ⟨h1, h2, h3⟩
  | cons kv tl ih =>
    intro acc hb h1 h2 h3
    rw [List.foldl_cons]
    obtain ⟨s1, s2, s3⟩ := inv3_slStep fid acc kv
      (hb kv (List.mem_cons_self _ _)) h1 h2 h3
    refine ih (RhpLinksUpdater.slStep fid acc kv) ?_ s1 s2 s3
    intro kv' hkv'
    rw [(slStep_frame fid acc kv).2.2.2.2]
    exact hb kv' (List.mem_cons_of_mem _ hkv')

theorem inv3_prepare (st : UpdState) (fid : Nat)
    (hnr : NoReadInv st) (hfs : FsSyncInv st) (hlr : LinkRegInv st) :
    NoReadInv (RelativePathReplacementStrategy.prepareAndCountReplacements st fid) ∧
    FsSyncInv (RelativePathReplacementStrategy.prepareAndCountReplacements st fid) ∧
    LinkRegInv (RelativePathReplacementStrategy.prepareAndCountReplacements st fid) := by
  obtain ⟨p1, p2, p3, p4, p5⟩ := prepare_frame st fid
  refine ⟨?_, ?_, ⟨?_, ?_⟩⟩
  · intro j hj
    have hf := prepare_fields st fid j
    rw [hf.2.1] at hj
    rw [hf.2.2.1]
    exact hnr j hj
  · intro j hj
    rw [p5] at hj
    have hf := prepare_fields st fid j
    rw [hf.2.1, hf.1, p2]
    exact hfs j hj
  · intro j kv hkv
    have hf := prepare_fields st fid j
    rw [hf.2.2.2] at hkv
    obtain ⟨hb, hreg⟩ := hlr.1 j kv hkv
    rw [p3, p5, (prepare_fields st fid kv.2).1]
    exact ⟨hb, hreg⟩
  · intro kv hkv
    rw [p3] at hkv
    obtain ⟨hb, hkey⟩ := hlr.2 kv hkv
    rw [p5, (prepare_fields st fid kv.2).1]
    exact ⟨hb, hkey⟩

theorem countReads_pair (p q : List Char) :
    countReads q [Ev.read p, Ev.prep p] = if q = p then 1 else 0 := by
  by_cases hq : q = p
  · subst hq
    simp [countReads, List.countP_cons]
  · rw [if_neg hq]
    have hpq : p ≠ q := fun h => hq h.symm
    simp [countReads, List.countP_cons, hpq]

theorem countPreps_pair (p q : List Char) :
    countPreps q [Ev.read p, Ev.prep p] = if q = p then 1 else 0 := by
  by_cases hq : q = p
  · subst hq
    simp [countPreps, List.countP_cons]
  · rw [if_neg hq]
    have hpq : p ≠ q := fun h => hq h.symm
    simp [countPreps, List.countP_cons, hpq]

theorem bal_slBody (st : UpdState) (fid : Nat) (hfid : fid < st.heap.length)
    (hb : BalInv st) : BalInv (slBody st fid) := by
  intro q
  rw [slBody_events st fid hfid]
  show countReads q (st.events ++ [Ev.read _, Ev.prep _]) = _
  rw [countReads_append, countPreps_append, hb q, countReads_pair, countPreps_pair]

theorem gl_ids (st : UpdState) (fid : Nat) :
    ∀ kv ∈ (RhpRpyx.getLinkedRpyx st fid).2,
      kv.2 < (RhpRpyx.getLinkedRpyx st fid).1.heap.length := by
  simp only [RhpRpyx.getLinkedRpyx]
  intro kv hkv
  rcases glFold_ids _ _ _ kv hkv with hm | hm
  · cases hm
  · exact hm

theorem inv_searchLinks :
    ∀ (fuel : Nat) (st : UpdState) (fid : Nat) (d : Int) (st' : UpdState),
      RhpLinksUpdater.searchLinks fuel st fid d = some st' →
      fid < st.heap.length → (getF st.heap fid).fileExists = true →
      RunInv st → RunInv st' := by
  intro fuel
  induction fuel with
  | zero => intro st fid d st' h; cases h
  | succ fuel ih =>
    intro st fid d st' h hfid hex hinv
    obtain ⟨hbal, hnr, hfs, hlr⟩ := hinv
    rw [searchLinks_succ_eq] at h
    obtain ⟨g1, g2, g3⟩ := inv3_gl st fid hex hnr hfs hlr
    have hfold := inv3_slFold fid (RhpRpyx.getLinkedRpyx st fid).2
      ((RhpRpyx.getLinkedRpyx st fid).1, [])
      (fun kv hkv => gl_ids st fid kv hkv) g1 g2 g3
    obtain ⟨p1, p2, p3⟩ := hfold
    have hbody : RunInv (slBody st fid) := by
      refine ⟨bal_slBody st fid hfid hbal, ?_, ?_, ?_⟩
      · exact (inv3_prepare _ fid p1 p2 p3).1
      · exact (inv3_prepare _ fid p1 p2 p3).2.1
      · exact (inv3_prepare _ fid p1 p2 p3).2.2
    have hqueue : ∀ cid ∈ slQueue st fid, cid < (slBody st fid).heap.length ∧
        (getF (slBody st fid).heap cid).fileExists = true := by
      intro cid hc
      have hc' : cid ∈ ((RhpRpyx.getLinkedRpyx st fid).2.foldl
          (RhpLinksUpdater.slStep fid) ((RhpRpyx.getLinkedRpyx st fid).1, [])).2 := hc
      rcases slFold_output fid _ _ cid hc' with hm | ⟨hex2, kv, hkvmem, rfl⟩
      · cases hm
      · have hlenf : ((RhpRpyx.getLinkedRpyx st fid).2.foldl
            (RhpLinksUpdater.slStep fid)
            ((RhpRpyx.getLinkedRpyx st fid).1, [])).1.heap.length =
            (RhpRpyx.getLinkedRpyx st fid).1.heap.length :=
          (slFold_frame fid _ _).2.2.2.2
        have hlenp : (slBody st fid).heap.length =
            ((RhpRpyx.getLinkedRpyx st fid).2.foldl (RhpLinksUpdater.slStep fid)
              ((RhpRpyx.getLinkedRpyx st fid).1, [])).1.heap.length :=
          (prepare_frame _ fid).2.2.2.2
        constructor
        · rw [hlenp, hlenf]
          exact gl_ids st fid kv hkvmem
        · show (getF (slBody st fid).heap kv.2).fileExists = true
          unfold slBody
          rw [(prepare_fields _ fid kv.2).2.1]
          exact hex2
    by_cases hd : d ≠ 0
    · rw [if_pos hd] at h
      have hmain : ∀ (l : List Nat) (s : UpdState), RunInv s →
          (∀ cid ∈ l, cid < s.heap.length ∧ (getF s.heap cid).fileExists = true) →
          ∀ s', List.foldlM (fun s cid =>
            RhpLinksUpdater.searchLinks fuel s cid (d - 1)) s l = some s' →
          RunInv s' := by
        intro l
        induction l with
        | nil =>
          intro s hs _ s' h'
          cases h'
          exact hs
        | cons c tl ihl =>
          intro s hs hpre s' h'
          rw [List.foldlM_cons] at h'
          rcases Option.bind_eq_some.mp h' with ⟨mid, hmid, hrest⟩
          have hc := hpre c (List.mem_cons_self _ _)
          have hmidinv := ih s c (d - 1) mid hmid hc.1 hc.2 hs
          have hrel := stepRel_searchLinks fuel s c (d - 1) mid hmid
          refine ihl mid hmidinv ?_ s' hrest
          intro cid hcid
          have hp := hpre cid (List.mem_cons_of_mem _ hcid)
          exact ⟨Nat.lt_of_lt_of_le hp.1 hrel.heap_len, by
            rw [(hrel.heap_stable cid hp.1).2]
            exact hp.2⟩
      exact hmain (slQueue st fid) (slBody st fid) hbody hqueue st' h
    · rw [if_neg hd] at h
      cases h
      exact hbody

theorem foldlM_pred {α : Type} (P : UpdState → Prop)
    (g : UpdState → α → Option UpdState)
    (hg : ∀ s x s', g s x = some s' → P s → P s') :
    ∀ (l : List α) (s s' : UpdState),
      List.foldlM g s l = some s' → P s → P s' := by
  intro l
  induction l with
  | nil =>
    intro s s' h hp
    cases h
    exact hp
  | cons x tl ih =>
    intro s s' h hp
    rw [List.foldlM_cons] at h
    rcases Option.bind_eq_some.mp h with ⟨mid, hmid, hrest⟩
    exact ih mid s' hrest (hg s x mid hmid hp)

theorem inv_alloc (st : UpdState) (g : RhpRpyx)
    (hfresh : g.wasRead = false ∧ g.linksDico = [] ∧
      g.fileExists = (alookup g.absPath st.fs).isSome)
    (hinv : RunInv st) : RunInv { st with heap := st.heap ++ [g] } := by
  obtain ⟨hbal, hnr, hfs, hlr⟩ := hinv
  have hget : ∀ j, (j < st.heap.length ∧
      getF (st.heap ++ [g]) j = getF st.heap j) ∨
      (j = st.heap.length ∧ getF (st.heap ++ [g]) j = g) ∨
      (st.heap.length < j ∧ getF (st.heap ++ [g]) j = dummyRpyx) := by
    intro j
    by_cases hj : j < st.heap.length
    · exact Or.inl ⟨hj, getF_append_lt _ _ _ hj⟩
    · by_cases hj2 : j = st.heap.length
      · subst hj2
        refine Or.inr (Or.inl ⟨rfl, ?_⟩)
        rw [getF_append_right _ _ _ (Nat.le_refl _), Nat.sub_self]
        rfl
      · refine Or.inr (Or.inr ⟨by omega, ?_⟩)
        rw [getF_append_right _ _ _ (by omega)]
        have : 1 ≤ j - st.heap.length := by omega
        exact List.getD_eq_default _ _ (by simpa using this)
  refine ⟨hbal, ?_, ?_, ⟨?_, ?_⟩⟩
  · intro j hj
    rcases hget j with ⟨hlt, hrec⟩ | ⟨heq, hrec⟩ | ⟨hgt, hrec⟩
    · rw [hrec] at hj ⊢
      exact hnr j hj
    · rw [hrec]
      exact hfresh.1
    · rw [hrec]
      rfl
  · intro j hj
    rcases hget j with ⟨hlt, hrec⟩ | ⟨heq, hrec⟩ | ⟨hgt, hrec⟩
    · rw [hrec]
      exact hfs j hlt
    · rw [hrec]
      exact hfresh.2.2
    · rw [List.length_append] at hj
      exact absurd hj (by simp; omega)
  · intro j kv hkv
    rcases hget j with ⟨hlt, hrec⟩ | ⟨heq, hrec⟩ | ⟨hgt, hrec⟩
    · rw [hrec] at hkv
      obtain ⟨hb, hreg⟩ := hlr.1 j kv hkv
      have hrec2 : getF (st.heap ++ [g]) kv.2 = getF st.heap kv.2 :=
        getF_append_lt _ _ _ hb
      refine ⟨by rw [List.length_append]; omega, ?_⟩
      show (alookup (lowerStr (getF (st.heap ++ [g]) kv.2).absPath)
        st.indexByAbsPath).isSome = true
      rw [hrec2]
      exact hreg
    · rw [hrec, hfresh.2.1] at hkv
      cases hkv
    · rw [hrec] at hkv
      cases hkv
  · intro kv hkv
    obtain ⟨hb, hkey⟩ := hlr.2 kv hkv
    have hrec2 : getF (st.heap ++ [g]) kv.2 = getF st.heap kv.2 :=
      getF_append_lt _ _ _ hb
    refine ⟨by rw [List.length_append]; omega, ?_⟩
    show kv.1 = lowerStr (getF (st.heap ++ [g]) kv.2).absPath
    rw [hrec2]
    exact hkey

theorem inv_seedStep (fuel : Nat) (st : UpdState) (p : List Char)
    (st' : UpdState) (h : RhpLinksUpdater.seedStep fuel st p = some st')
    (hinv : RunInv st) : RunInv st' := by
  simp only [RhpLinksUpdater.seedStep] at h
  have hfresh : (RhpRpyx.construct st.cwd st.fs p).wasRead = false ∧
      (RhpRpyx.construct st.cwd st.fs p).linksDico = [] ∧
      (RhpRpyx.construct st.cwd st.fs p).fileExists =
        (alookup (RhpRpyx.construct st.cwd st.fs p).absPath st.fs).isSome :=
    ⟨rfl, rfl, rfl⟩
  have halloc := inv_alloc st (RhpRpyx.construct st.cwd st.fs p) hfresh hinv
  by_cases hex : (RhpRpyx.construct st.cwd st.fs p).fileExists = false
  · rw [if_pos hex] at h
    cases h
    exact halloc
  · rw [if_neg hex] at h
    refine inv_searchLinks fuel _ _ _ _ h ?_ ?_ halloc
    · simp
    · show (getF (st.heap ++ [RhpRpyx.construct st.cwd st.fs p]) st.heap.length).fileExists = true
      rw [getF_append_right _ _ _ (Nat.le_refl _), Nat.sub_self]
      show (RhpRpyx.construct st.cwd st.fs p).fileExists = true
      revert hex
      cases (RhpRpyx.construct st.cwd st.fs p).fileExists <;> simp

theorem inv_discoverPhase (fuel : Nat) (st : UpdState)
    (seeds : List (List Char)) (st' : UpdState)
    (h : RhpLinksUpdater.discoverPhase fuel st seeds = some st')
    (hinv : RunInv st) : RunInv st' :=
  foldlM_pred RunInv (RhpLinksUpdater.seedStep fuel)
    (fun s x s' hx hp => inv_seedStep fuel s x s' hx hp) seeds st st' h hinv

/-- C2: with a write cap of `k` at most `k` files are written in a run,
    and the tallies are complete: every discovery read is matched by a
    prepare-and-count event of the same file, and the capped apply phase
    leaves the link and replacement totals of the discovery phase exactly
    as they were. -/
theorem C2_cap_and_tally (fuel : Nat) (cwd : List Char)
    (fs : List (List Char × List Char)) (seeds : List (List Char)) (cap : Nat)
    (st' : UpdState) (h : run fuel cwd fs seeds cap = some st') :
    countWrites st'.events ≤ cap ∧
    (∀ p, countReads p st'.events = countPreps p st'.events) ∧
    ∃ stD, RhpLinksUpdater.discoverPhase fuel (initState cwd fs cap) seeds = some stD ∧
      st' = RhpLinksUpdater.applyPhase stD ∧
      st'.strat.linkCount = stD.strat.linkCount ∧
      st'.strat.replacementCount = stD.strat.replacementCount := by
  have hwle := run_writes_le fuel cwd fs seeds cap st' h
  obtain ⟨stD, hD, rfl⟩ := run_split fuel cwd fs seeds cap st' h
  have hbal : BalInv stD :=
    (inv_discoverPhase fuel _ seeds stD hD (inv_initState cwd fs cap)).1
  obtain ⟨t2, ht2, hw2⟩ := applyPhase_events stD
  refine ⟨hwle, ?_, stD, hD, rfl, (applyPhase_frame stD).2.2.1,
    (applyPhase_frame stD).2.2.2⟩
  intro p
  rw [ht2, countReads_append, countPreps_append, hbal p,
    countReads_zero_of_writes p t2 (fun e he => (hw2 e he).1),
    countPreps_zero_of_writes p t2 (fun e he => (hw2 e he).1)]

/-- C2 witness: the cap-and-tally theorem at a concrete two-file run. -/
theorem C2_cap_and_tally_witness :
    (run 10 (strL "/") [(strL "/proj/S.rpyx", strL ">/proj/T_rpy<"),
        (strL "/proj/T.rpyx", strL "t")] [strL "/proj/S.rpyx"] 1 =
      some ((run 10 (strL "/") [(strL "/proj/S.rpyx", strL ">/proj/T_rpy<"),
        (strL "/proj/T.rpyx", strL "t")] [strL "/proj/S.rpyx"] 1).getD dummyUpdState)) ∧
    (countWrites ((run 10 (strL "/") [(strL "/proj/S.rpyx", strL ">/proj/T_rpy<"),
        (strL "/proj/T.rpyx", strL "t")] [strL "/proj/S.rpyx"] 1).getD dummyUpdState).events ≤ 1 ∧
      (∀ p, countReads p ((run 10 (strL "/") [(strL "/proj/S.rpyx", strL ">/proj/T_rpy<"),
        (strL "/proj/T.rpyx", strL "t")] [strL "/proj/S.rpyx"] 1).getD dummyUpdState).events =
        countPreps p ((run 10 (strL "/") [(strL "/proj/S.rpyx", strL ">/proj/T_rpy<"),
        (strL "/proj/T.rpyx", strL "t")] [strL "/proj/S.rpyx"] 1).getD dummyUpdState).events) ∧
      ∃ stD, RhpLinksUpdater.discoverPhase 10
          (initState (strL "/") [(strL "/proj/S.rpyx", strL ">/proj/T_rpy<"),
            (strL "/proj/T.rpyx", strL "t")] 1) [strL "/proj/S.rpyx"] = some stD ∧
        ((run 10 (strL "/") [(strL "/proj/S.rpyx", strL ">/proj/T_rpy<"),
          (strL "/proj/T.rpyx", strL "t")] [strL "/proj/S.rpyx"] 1).getD dummyUpdState) =
          RhpLinksUpdater.applyPhase stD ∧
        ((run 10 (strL "/") [(strL "/proj/S.rpyx", strL ">/proj/T_rpy<"),
          (strL "/proj/T.rpyx", strL "t")] [strL "/proj/S.rpyx"] 1).getD dummyUpdState).strat.linkCount =
          stD.strat.linkCount ∧
        ((run 10 (strL "/") [(strL "/proj/S.rpyx", strL ">/proj/T_rpy<"),
          (strL "/proj/T.rpyx", strL "t")] [strL "/proj/S.rpyx"] 1).getD dummyUpdState).strat.replacementCount =
          stD.strat.replacementCount) :=
  ⟨by decide,
    C2_cap_and_tally 10 (strL "/") [(strL "/proj/S.rpyx", strL ">/proj/T_rpy<"),
      (strL "/proj/T.rpyx", strL "t")] [strL "/proj/S.rpyx"] 1 _ (by decide)⟩

/-- C9: a link whose target file does not exist is tolerated: the target
    is registered in the index, it is never read (not queued for
    recursive discovery), `trace` reports it at the most severe level
    used (`logging.WARNING = 30`), and the apply phase never writes its
    path. -/
theorem C9_missing_target_tolerated (fuel : Nat) (cwd : List Char)
    (fs : List (List Char × List Char)) (seeds : List (List Char)) (cap : Nat)
    (st' : UpdState) (i : Nat) (k : List Char) (cid : Nat)
    (h : run fuel cwd fs seeds cap = some st')
    (hlink : (k, cid) ∈ (getF st'.heap i).linksDico)
    (hmiss : (getF st'.heap cid).fileExists = false) :
    (alookup (lowerStr (getF st'.heap cid).absPath) st'.indexByAbsPath).isSome = true ∧
    (getF st'.heap cid).wasRead = false ∧
    (k, 30) ∈ RhpRpyx.traceLevels st'.heap (getF st'.heap i) ∧
    (∀ e ∈ st'.events, e ≠ Ev.write ((getF st'.heap cid).absPath)) := by
  obtain ⟨stD, hD, rfl⟩ := run_split fuel cwd fs seeds cap st' h
  have hinv := inv_discoverPhase fuel _ seeds stD hD (inv_initState cwd fs cap)
  obtain ⟨hbal, hnr, hfs2, hlr⟩ := hinv
  have hheap : (RhpLinksUpdater.applyPhase stD).heap = stD.heap :=
    (applyPhase_frame stD).1
  have hix : (RhpLinksUpdater.applyPhase stD).indexByAbsPath = stD.indexByAbsPath :=
    (applyPhase_frame stD).2.1
  rw [hheap] at hlink hmiss
  rw [hheap, hix]
  obtain ⟨hcb, hreg⟩ := hlr.1 i (k, cid) hlink
  refine ⟨hreg, hnr cid hmiss, ?_, ?_⟩
  · unfold RhpRpyx.traceLevels
    refine List.mem_map.mpr ⟨(k, cid), hlink, ?_⟩
    simp only
    rw [if_pos hmiss]
  · intro e he hcontra
    have hrelD := stepRel_discoverPhase fuel _ seeds stD hD
    obtain ⟨t1, ht1, hw1⟩ := hrelD.events_ext
    obtain ⟨t2, ht2, hw2⟩ := applyPhase_events stD
    rw [ht2, ht1] at he
    rcases List.mem_append.mp he with he' | he'
    · have hwf : e.isWrite = false := hw1 e (by simpa [initState] using he')
      rw [hcontra] at hwf
      exact Bool.noConfusion hwf
    · obtain ⟨-, j, hej, hexj⟩ := hw2 e he'
      rw [hcontra] at hej
      have hpatheq : (getF stD.heap j).absPath = (getF stD.heap cid).absPath :=
        (Ev.write.injEq _ _).mp hej.symm
      by_cases hj : j < stD.heap.length
      · have h1 := hfs2 j hj
        have h2 := hfs2 cid hcb
        rw [hexj, hpatheq, ← h2, hmiss] at h1
        exact Bool.noConfusion h1
      · have hdum : getF stD.heap j = dummyRpyx :=
          List.getD_eq_default _ _ (Nat.le_of_not_lt hj)
        rw [hdum] at hexj
        exact Bool.noConfusion hexj

/-- Scenario for the C9 witness: one seed whose single token's target is
    missing from the filesystem. -/
def fsC9 : List (List Char × List Char) :=
  [(strL "/proj/A.rpyx", strL ">/proj/M_rpy<")]

/-- The C9 scenario run. -/
def runC9res : UpdState :=
  (run 10 (strL "/") fsC9 [strL "/proj/A.rpyx"] 5).getD dummyUpdState

/-- C9 witness: the missing-target guarantees at the concrete scenario
    (the missing target is heap instance 1, linked from the seed 0). -/
theorem C9_missing_target_tolerated_witness :
    (run 10 (strL "/") fsC9 [strL "/proj/A.rpyx"] 5 = some runC9res) ∧
    ((strL "/proj/M.rpyx", 1) ∈ (getF runC9res.heap 0).linksDico) ∧
    ((getF runC9res.heap 1).fileExists = false) ∧
    ((alookup (lowerStr (getF runC9res.heap 1).absPath)
        runC9res.indexByAbsPath).isSome = true ∧
      (getF runC9res.heap 1).wasRead = false ∧
      (strL "/proj/M.rpyx", 30) ∈
        RhpRpyx.traceLevels runC9res.heap (getF runC9res.heap 0) ∧
      (∀ e ∈ runC9res.events, e ≠ Ev.write ((getF runC9res.heap 1).absPath))) :=
  ⟨by decide, by decide, by decide,
    C9_missing_target_tolerated 10 (strL "/") fsC9 [strL "/proj/A.rpyx"] 5
      runC9res 0 (strL "/proj/M.rpyx") 1 (by decide) (by decide) (by decide)⟩
